import Mathlib

/-!
Verification of the canvas layout engine of `cxblueprint`
(`src/cxblueprint/canvas_layout.py`, class `CanvasLayoutEngine`).

The engine consumes a list of flow blocks (each with an identifier and a
transitions record holding an optional sequential target `NextAction`, an
ordered list of `Conditions` branches and an ordered list of `Errors`
branches) plus a start identifier, and produces a mapping from block
identifier to integer pixel coordinates.

Embedding conventions:
* Python dicts with insertion order are embedded as association lists
  (`List (String × _)`), new keys appended at the end; dict membership is
  `List.lookup`.
* A Python optional-string field (`transitions.get("NextAction")` tested
  for truthiness) is embedded as `Option String`; `none` stands for the
  field being absent or falsy.
* The unbounded `while queue:` loop of `_assign_levels` and the
  `while row in used` scan of `_assign_rows` are embedded with an explicit
  fuel argument; the wrappers pass a fuel that provably dominates the
  number of iterations of the Python loop, so the embedded function
  computes the same result as the unbounded loop.
* Python's stable `list.sort(key=...)` is embedded as a stable insertion
  sort `sortOn`.
-/

namespace CxBlueprint

/-- Transitions record of a flow block: the optional sequential target and
the ordered condition/error branches.  Each branch entry carries an optional
target identifier (`cond.get("NextAction")` may be absent).  Branch entries
without a target still count for the visual height of the block. -/
structure Transitions where
  NextAction : Option String
  Conditions : List (Option String)
  Errors : List (Option String)
deriving Repr, DecidableEq

/-- Flow block as seen by the layout engine: an identifier and its
transitions.  (Kind-specific fields are never inspected by layout.) -/
structure FlowBlock where
  identifier : String
  transitions : Transitions
deriving Repr, DecidableEq

/-- Layout constant `START_X` of `CanvasLayoutEngine`. -/
def START_X : Nat := 150

/-- Layout constant `START_Y` of `CanvasLayoutEngine`. -/
def START_Y : Nat := 50

/-- Layout constant `HORIZONTAL_SPACING` of `CanvasLayoutEngine`. -/
def HORIZONTAL_SPACING : Nat := 280

/-- Layout constant `VERTICAL_SPACING_MIN` of `CanvasLayoutEngine`. -/
def VERTICAL_SPACING_MIN : Nat := 180

/-- Layout constant `BLOCK_HEIGHT_BASE` of `CanvasLayoutEngine`. -/
def BLOCK_HEIGHT_BASE : Nat := 100

/-- Layout constant `BLOCK_HEIGHT_PER_BRANCH` of `CanvasLayoutEngine`. -/
def BLOCK_HEIGHT_PER_BRANCH : Nat := 25

/-- Padding added to a block height when computing row heights
(the literal `+ 80` in phase 4 of `calculate_positions`). -/
def ROW_PADDING : Nat := 80

/-- Final output per block: integer pixel position (top-left corner). -/
structure Pos where
  x : Nat
  y : Nat
deriving Repr, DecidableEq

/-- Embedding of `_get_all_targets`: all target identifiers of a block
with their transition type, in the fixed order sequential target first,
then conditions in list order, then errors in list order.  Branch entries
without a target are skipped. -/
def get_all_targets (b : FlowBlock) : List (String × String) :=
  (match b.transitions.NextAction with
   | some t => [(t, "next")]
   | none => []) ++
  (b.transitions.Conditions.filterMap (fun c => c.map (fun t => (t, "condition")))) ++
  (b.transitions.Errors.filterMap (fun e => e.map (fun t => (t, "error"))))

/-- Target identifiers of a block, types dropped (every caller of
`_get_all_targets` discards the transition type). -/
def targetsOf (b : FlowBlock) : List String :=
  (get_all_targets b).map (fun p => p.1)

/-- Embedding of `_get_block`: first block in the list with the given
identifier, if any. -/
def get_block (blocks : List FlowBlock) (bid : String) : Option FlowBlock :=
  blocks.find? (fun b => b.identifier == bid)

/-- Outgoing target identifiers of an identifier: those of the first block
bearing it, or none when no block matches (a dangling edge target). -/
def targetIds (blocks : List FlowBlock) (bid : String) : List String :=
  match get_block blocks bid with
  | some b => targetsOf b
  | none => []

/-- Candidate identifiers that can ever enter the BFS queue from a block:
identifiers of blocks (the only ids whose targets get enqueued) and all
edge targets.  Used only for the fuel bound of `assign_levels`. -/
def levelsCand (blocks : List FlowBlock) : List String :=
  (blocks.map (fun b => b.identifier) ++ blocks.flatMap targetsOf).dedup

/-- Upper bound (plus two) on the number of queue entries a single BFS
step can append.  Used only for the fuel bound of `assign_levels`. -/
def enqueueBound (blocks : List FlowBlock) : Nat :=
  (blocks.flatMap targetsOf).length + 2

/-- Measure dominating the number of remaining iterations of the
`while queue:` loop of `_assign_levels` from a given state. -/
def levelsMeasure (blocks : List FlowBlock) (levels : List (String × Nat))
    (queue : List (String × Nat)) : Nat :=
  enqueueBound blocks *
    ((levelsCand blocks).filter (fun v => (levels.lookup v).isNone)).length +
  queue.length

/-- Embedding of the `while queue:` loop body of `_assign_levels`, with
explicit fuel.  Pop the head of the FIFO queue; skip it when its identifier
already has a level; otherwise record its level and append every target of
its block (when one exists) that has no level yet, at level + 1. -/
def assign_levels_aux (blocks : List FlowBlock) :
    Nat → List (String × Nat) → List (String × Nat) → List (String × Nat)
  | 0, levels, _ => levels
  | _ + 1, levels, [] => levels
  | fuel + 1, levels, (bid, lvl) :: queue =>
    if (levels.lookup bid).isSome then
      assign_levels_aux blocks fuel levels queue
    else
      let levels2 := levels ++ [(bid, lvl)]
      match get_block blocks bid with
      | none => assign_levels_aux blocks fuel levels2 queue
      | some b =>
          let newEntries := (targetsOf b).filterMap
            (fun t => if (levels2.lookup t).isSome then none else some (t, lvl + 1))
          assign_levels_aux blocks fuel levels2 (queue ++ newEntries)

/-- Embedding of `_assign_levels`: BFS from the start identifier, first
assignment (shortest distance) wins. -/
def assign_levels (blocks : List FlowBlock) (start : String) :
    List (String × Nat) :=
  assign_levels_aux blocks (levelsMeasure blocks [] [(start, 0)]) [] [(start, 0)]

/-- Stable insertion step: place `x` immediately before the first element
whose key is not smaller than that of `x`.  Elements with an equal key
that were already present stay in front only if they were inserted later
(they came earlier in the original list), which gives stability. -/
def insertByKey (key : α → Nat) (x : α) : List α → List α
  | [] => [x]
  | y :: ys => if key x ≤ key y then x :: y :: ys else y :: insertByKey key x ys

/-- Embedding of Python's stable `sorted`/`list.sort(key=...)`: a stable
insertion sort by a natural-number key. -/
def sortOn (key : α → Nat) (l : List α) : List α :=
  l.foldr (insertByKey key) []

/-- Embedding of one entry of the dict built by `_build_parent_map`: the
identifiers of the blocks targeting `bid` via any edge, one occurrence per
edge, in block order then edge order. -/
def parent_ids (blocks : List FlowBlock) (bid : String) : List String :=
  blocks.flatMap (fun b =>
    (targetsOf b).filterMap (fun t => if t = bid then some b.identifier else none))

/-- Embedding of `_get_parent_row`: minimum row among the already-placed
parents of `bid`, or 0 when no parent is placed yet. -/
def get_parent_row (blocks : List FlowBlock) (rows : List (String × Nat))
    (bid : String) : Nat :=
  match (parent_ids blocks bid).filterMap (fun p => rows.lookup p) with
  | [] => 0
  | r :: rs => rs.foldl Nat.min r

/-- Embedding of one entry of the dict built by `_build_next_action_map`:
the parent reaching `bid` via its sequential edge.  When several blocks
have `bid` as sequential target, the last one in list order wins (the dict
entry is overwritten). -/
def next_action_parent (blocks : List FlowBlock) (bid : String) : Option String :=
  ((blocks.filter (fun b => b.transitions.NextAction == some bid)).getLast?).map
    (fun b => b.identifier)

/-- Embedding of the `while row in used_rows_per_level[level]: row += 1`
scan of `_assign_rows`, with explicit fuel.  `used` holds (level, row)
pairs already taken. -/
def find_free_row (used : List (Nat × Nat)) (lvl : Nat) :
    Nat → Nat → Nat
  | 0, row => row
  | fuel + 1, row =>
    if (lvl, row) ∈ used then find_free_row used lvl fuel (row + 1) else row

/-- State of the row-assignment loop: the rows assigned so far (in
insertion order) and the set of (level, row) slots already taken. -/
abbrev RowState := List (String × Nat) × List (Nat × Nat)

/-- Embedding of the body of the inner `for block_id in blocks_at_level`
loop of `_assign_rows`: place one block, preferring the row of its
sequential parent when that parent is placed and the row is free at this
level, and otherwise scanning forward from the minimum placed-parent row
for the first free row at this level. -/
def assign_rows_step (blocks : List FlowBlock) (lvl : Nat)
    (st : RowState) (bid : String) : RowState :=
  let rows := st.1
  let used := st.2
  let fallback : RowState :=
    let minRow := get_parent_row blocks rows bid
    let row := find_free_row used lvl (used.length + 1) minRow
    (rows ++ [(bid, row)], used ++ [(lvl, row)])
  match next_action_parent blocks bid with
  | some p =>
    match rows.lookup p with
    | some desired =>
      if (lvl, desired) ∈ used then fallback
      else (rows ++ [(bid, desired)], used ++ [(lvl, desired)])
    | none => fallback
  | none => fallback

/-- Identifiers at one level, in insertion order of the levels dict
(one entry of the `level_groups` dict of `_assign_rows`). -/
def level_group (levels : List (String × Nat)) (lvl : Nat) : List String :=
  (levels.filter (fun p => p.2 == lvl)).map (fun p => p.1)

/-- Embedding of one iteration of the outer `for level in sorted(...)`
loop of `_assign_rows`: sort the blocks of the level by the minimum row of
their already-placed parents (stably, as Python's sort), then place each. -/
def assign_rows_level (blocks : List FlowBlock) (levels : List (String × Nat))
    (lvl : Nat) (st : RowState) : RowState :=
  let group := sortOn (fun bid => get_parent_row blocks st.1 bid)
    (level_group levels lvl)
  group.foldl (assign_rows_step blocks lvl) st

/-- Embedding of `_assign_rows`: process levels in ascending order,
placing every block of each level. -/
def assign_rows (blocks : List FlowBlock) (levels : List (String × Nat)) :
    List (String × Nat) :=
  let lvls := sortOn (fun l => l) ((levels.map (fun p => p.2)).dedup)
  (lvls.foldl (fun st lvl => assign_rows_level blocks levels lvl st) ([], [])).1

/-- Embedding of `_compact_rows`: renumber the row values to be contiguous
from 0, by rank in the sorted set of distinct values actually used. -/
def compact_rows (rows : List (String × Nat)) : List (String × Nat) :=
  match rows with
  | [] => []
  | _ :: _ =>
    let uniqueRows := sortOn (fun r => r) ((rows.map (fun p => p.2)).dedup)
    rows.map (fun p => (p.1, uniqueRows.indexOf p.2))

/-- Embedding of `_get_block_height`: base height plus per-branch height,
counting every condition and error entry (with or without a target);
base height alone when the identifier matches no block. -/
def get_block_height (b : Option FlowBlock) : Nat :=
  match b with
  | none => BLOCK_HEIGHT_BASE
  | some b =>
    BLOCK_HEIGHT_BASE +
      (b.transitions.Conditions.length + b.transitions.Errors.length) *
        BLOCK_HEIGHT_PER_BRANCH

/-- Members of one row (one entry of the `row_blocks` dict of phase 4 of
`calculate_positions`), in insertion order of the rows dict. -/
def row_members (rows : List (String × Nat)) (r : Nat) : List String :=
  (rows.filter (fun p => p.2 == r)).map (fun p => p.1)

/-- Height of one row (one entry of the `row_heights` dict of phase 4):
at least `VERTICAL_SPACING_MIN`, and at least the padded height of every
block in the row. -/
def row_height (blocks : List FlowBlock) (rows : List (String × Nat))
    (r : Nat) : Nat :=
  (row_members rows r).foldl
    (fun acc bid => max acc (get_block_height (get_block blocks bid) + ROW_PADDING))
    VERTICAL_SPACING_MIN

/-- Cumulative y position of the rows (the `row_y_positions` dict of
phase 4): iterate the distinct row values in ascending order, each row
starting where the previous one ended. -/
def row_y_list (blocks : List FlowBlock) (rows : List (String × Nat)) :
    List (Nat × Nat) :=
  let rs := sortOn (fun r => r) ((rows.map (fun p => p.2)).dedup)
  (rs.foldl (fun st r => (st.1 ++ [(r, st.2)], st.2 + row_height blocks rows r))
    ([], START_Y)).1

/-- Embedding of `calculate_positions`: the full pipeline.  An absent or
falsy (empty) start identifier yields the empty mapping.  The lookups in
phase 5 use a default of 0; the accompanying theorems show every looked-up
key is present, matching the Python dict accesses that never raise. -/
def calculate_positions (blocks : List FlowBlock)
    (start_action : Option String) : List (String × Pos) :=
  match start_action with
  | none => []
  | some s =>
    if s = "" then []
    else
      let levels := assign_levels blocks s
      let rows := compact_rows (assign_rows blocks levels)
      let yList := row_y_list blocks rows
      levels.map (fun p =>
        let x := START_X + p.2 * HORIZONTAL_SPACING
        let y := (yList.lookup ((rows.lookup p.1).getD 0)).getD 0
        (p.1, Pos.mk x y))

/-- Reachability at a distance: `Reach blocks start v n` holds when there
is a directed path of `n` edges from `start` to `v` in the identifier
graph, where the out-edges of an identifier are the targets of the first
block bearing it (none for a dangling identifier).  All three edge kinds count
with weight one.  This is the specification-side notion of reachability
and shortest distance against which `assign_levels` is checked. -/
inductive Reach (blocks : List FlowBlock) (start : String) : String → Nat → Prop
  | refl : Reach blocks start start 0
  | step {v n t} : Reach blocks start v n → t ∈ targetIds blocks v →
      Reach blocks start t (n + 1)

/-- Loop invariant of the `while queue:` loop of `_assign_levels`.
The queue levels are non-decreasing and spread at most one apart; every
assigned level is at most every queued level; every assigned or queued
entry is justified by a path of that exact length; every target of an
assigned identifier is assigned or queued at most one level deeper; keys
are assigned at most once; the start entry is the initial queue or is
already assigned. -/
structure LevelsInv (blocks : List FlowBlock) (start : String)
    (levels queue : List (String × Nat)) : Prop where
  sorted : List.Pairwise (fun p q : String × Nat => p.2 ≤ q.2) queue
  spread : ∀ p ∈ queue, ∀ q ∈ queue, p.2 ≤ q.2 + 1
  levelsLe : ∀ w ∈ levels, ∀ q ∈ queue, w.2 ≤ q.2
  reachL : ∀ w ∈ levels, Reach blocks start w.1 w.2
  reachQ : ∀ q ∈ queue, Reach blocks start q.1 q.2
  closure : ∀ w ∈ levels, ∀ t ∈ targetIds blocks w.1,
    (∃ l, (t, l) ∈ levels ∧ l ≤ w.2 + 1) ∨ (∃ l, (t, l) ∈ queue ∧ l ≤ w.2 + 1)
  nodupKeys : (levels.map Prod.fst).Nodup
  startInit : levels = [] → queue = [(start, 0)]
  startDone : levels ≠ [] → (start, 0) ∈ levels

/-- End-state properties of `_assign_levels`: the start is assigned
level 0, every assignment is witnessed by a path of that length, the
assigned set is closed under edges with level growth at most one, and
each identifier is assigned at most once. -/
structure LevelsFinal (blocks : List FlowBlock) (start : String)
    (L : List (String × Nat)) : Prop where
  startMem : (start, 0) ∈ L
  reach : ∀ w ∈ L, Reach blocks start w.1 w.2
  closure : ∀ w ∈ L, ∀ t ∈ targetIds blocks w.1, ∃ l, (t, l) ∈ L ∧ l ≤ w.2 + 1
  nodupKeys : (L.map Prod.fst).Nodup

/-- Invariant of the row-assignment loop: row keys are assigned at most
once, every placed identifier has a level and its (level, row) slot is
recorded as used, and two distinct placed identifiers at the same level
never share a row. -/
structure RowsInv (levels : List (String × Nat)) (st : RowState) : Prop where
  keysNodup : (st.1.map Prod.fst).Nodup
  usedMem : ∀ p ∈ st.1, ∃ l, levels.lookup p.1 = some l ∧ (l, p.2) ∈ st.2
  distinct : ∀ p ∈ st.1, ∀ q ∈ st.1, p.1 ≠ q.1 →
    levels.lookup p.1 = levels.lookup q.1 → p.2 ≠ q.2

/-- Sorted list of the distinct row values of a row mapping (the
`unique_rows` list of `_compact_rows`, also recomputed as the sorted
`row_heights` keys in phase 4 of `calculate_positions`). -/
def uniqueRowsOf (rows : List (String × Nat)) : List Nat :=
  sortOn (fun r => r) ((rows.map (fun p => p.2)).dedup)

/-- Concrete two-block linear graph of the spec's scenario 1:
`A --seq--> B`. -/
def exampleLinear : List FlowBlock :=
  [⟨"A", ⟨some "B", [], []⟩⟩, ⟨"B", ⟨none, [], []⟩⟩]

/-- Concrete fan-out graph of the spec's scenario 2: one block `A` with
three conditional targets and no sequential edge. -/
def exampleFanout : List FlowBlock :=
  [⟨"A", ⟨none, [some "B", some "C", some "D"], []⟩⟩,
   ⟨"B", ⟨none, [], []⟩⟩, ⟨"C", ⟨none, [], []⟩⟩, ⟨"D", ⟨none, [], []⟩⟩]

/-- Concrete self-loop graph of the spec's scenario 3:
`A --cond--> A` plus `A --seq--> B`. -/
def exampleSelfLoop : List FlowBlock :=
  [⟨"A", ⟨some "B", [some "A"], []⟩⟩, ⟨"B", ⟨none, [], []⟩⟩]

/-- Concrete diamond-merge graph of the spec's scenario 4. -/
def exampleDiamond : List FlowBlock :=
  [⟨"A", ⟨none, [some "B", some "C"], []⟩⟩,
   ⟨"B", ⟨some "D", [], []⟩⟩, ⟨"C", ⟨some "D", [], []⟩⟩,
   ⟨"D", ⟨none, [], []⟩⟩]

/-- Concrete graph in which `X` has two sequential-edge parents `P1` and
`P2`; the next-action map keeps only the later one (`P2`). -/
def exampleTwoSeqParents : List FlowBlock :=
  [⟨"S", ⟨none, [some "P1", some "P2"], []⟩⟩,
   ⟨"P1", ⟨some "X", [], []⟩⟩,
   ⟨"P2", ⟨some "X", [], []⟩⟩,
   ⟨"X", ⟨none, [], []⟩⟩]

/-! ### Association list lemmas -/

section AssocList

variable {α β : Type} [BEq α] [LawfulBEq α]

theorem lookup_append (l₁ l₂ : List (α × β)) (k : α) :
    (l₁ ++ l₂).lookup k =
      match l₁.lookup k with
      | some v => some v
      | none => l₂.lookup k := by
  induction l₁ with
  | nil => simp [List.lookup]
  | cons p t ih =>
    rcases p with ⟨a, b⟩
    by_cases h : k == a <;> simp [List.lookup, h, ih]

theorem mem_of_lookup_eq_some {l : List (α × β)} {k : α} {v : β}
    (h : l.lookup k = some v) : (k, v) ∈ l := by
  induction l with
  | nil => simp [List.lookup] at h
  | cons p t ih =>
    rcases p with ⟨a, b⟩
    by_cases hk : k == a
    · simp [List.lookup, hk] at h
      simp [h, eq_of_beq hk]
    · simp [List.lookup, hk] at h
      exact List.mem_cons_of_mem _ (ih h)

theorem lookup_isSome_iff {l : List (α × β)} {k : α} :
    (l.lookup k).isSome ↔ k ∈ l.map Prod.fst := by
  induction l with
  | nil => simp [List.lookup]
  | cons p t ih =>
    rcases p with ⟨a, b⟩
    by_cases hk : k == a
    · simp [List.lookup, hk, eq_of_beq hk]
    · have : ¬ k = a := by
        intro h; subst h; simp at hk
      simp [List.lookup, hk, this, ih]

theorem lookup_eq_none_iff {l : List (α × β)} {k : α} :
    l.lookup k = none ↔ k ∉ l.map Prod.fst := by
  rw [← lookup_isSome_iff, Option.isSome_iff_exists]
  cases l.lookup k <;> simp

theorem lookup_eq_some_of_mem {l : List (α × β)} {k : α} {v : β}
    (hnd : (l.map Prod.fst).Nodup) (hm : (k, v) ∈ l) :
    l.lookup k = some v := by
  induction l with
  | nil => simp at hm
  | cons p t ih =>
    rcases p with ⟨a, b⟩
    rw [List.map_cons, List.nodup_cons] at hnd
    rcases List.mem_cons.1 hm with h | h
    · injection h with h1 h2
      subst h1; subst h2
      simp [List.lookup]
    · have hka : ¬ k = a := by
        intro he
        have hmem : k ∈ t.map Prod.fst := by
          simpa using List.mem_map_of_mem Prod.fst h
        exact hnd.1 (he ▸ hmem)
      have hkb : (k == a) = false := by simpa using hka
      simp [List.lookup, hkb]
      exact ih hnd.2 h

theorem lookup_append_right {l₁ l₂ : List (α × β)} {k : α}
    (h : l₁.lookup k = none) : (l₁ ++ l₂).lookup k = l₂.lookup k := by
  rw [lookup_append, h]

theorem lookup_append_left {l₁ l₂ : List (α × β)} {k : α} {v : β}
    (h : l₁.lookup k = some v) : (l₁ ++ l₂).lookup k = some v := by
  rw [lookup_append, h]

end AssocList

/-! ### Filter-length lemmas used by the fuel bound -/

section FilterLen

variable {α : Type}

theorem length_filter_mono {l : List α} {p q : α → Bool}
    (h : ∀ a ∈ l, p a = true → q a = true) :
    (l.filter p).length ≤ (l.filter q).length := by
  induction l with
  | nil => simp
  | cons a t ih =>
    have ht : ∀ x ∈ t, p x = true → q x = true := fun x hx => h x (by simp [hx])
    by_cases hp : p a
    · have hq : q a = true := h a (by simp) hp
      simp [hp, hq]
      exact ih ht
    · by_cases hq : q a <;>
        simp [hp, hq] <;> [exact Nat.le_succ_of_le (ih ht); exact ih ht]

theorem length_filter_strict {l : List α} {p q : α → Bool} {a : α}
    (hnd : l.Nodup) (ha : a ∈ l) (hpa : p a = true) (hqa : q a = false)
    (h : ∀ x ∈ l, q x = true → p x = true) :
    (l.filter q).length + 1 ≤ (l.filter p).length := by
  induction l with
  | nil => simp at ha
  | cons b t ih =>
    rcases List.nodup_cons.1 hnd with ⟨hbt, hndt⟩
    rcases List.mem_cons.1 ha with h1 | h1
    · subst h1
      have hqt : ∀ x ∈ t, q x = true → p x = true := fun x hx => h x (by simp [hx])
      have := length_filter_mono hqt
      simp [hpa, hqa]
      omega
    · have hat : a ∈ t := h1
      have hqt : ∀ x ∈ t, q x = true → p x = true := fun x hx => h x (by simp [hx])
      have iht := ih hndt hat hqt
      by_cases hpb : p b
      · by_cases hqb : q b <;> simp [hpb, hqb] <;> omega
      · have hqb : q b = false := by
          by_contra hc
          exact hpb (h b (by simp) (by simpa using hc))
        simp [hpb, hqb]
        omega

end FilterLen

/-! ### Correctness of the BFS level assignment -/

theorem targetIds_of_get_block {blocks : List FlowBlock} {bid : String}
    {b : FlowBlock} (h : get_block blocks bid = some b) :
    targetIds blocks bid = targetsOf b := by
  simp [targetIds, h]

theorem get_block_mem {blocks : List FlowBlock} {bid : String} {b : FlowBlock}
    (h : get_block blocks bid = some b) : b ∈ blocks ∧ b.identifier = bid := by
  refine ⟨List.mem_of_find?_eq_some h, ?_⟩
  have := List.find?_some h
  simpa using this

theorem targets_length_le {blocks : List FlowBlock} {b : FlowBlock}
    (h : b ∈ blocks) :
    (targetsOf b).length ≤ (blocks.flatMap targetsOf).length := by
  induction blocks with
  | nil => simp at h
  | cons c t ih =>
    rcases List.mem_cons.1 h with h1 | h1
    · subst h1
      rw [List.flatMap_cons, List.length_append]
      omega
    · have := ih h1
      rw [List.flatMap_cons, List.length_append]
      omega

theorem pairwise_of_const_snd {l : List (String × Nat)} {c : Nat}
    (h : ∀ p ∈ l, p.2 = c) :
    List.Pairwise (fun p q : String × Nat => p.2 ≤ q.2) l := by
  induction l with
  | nil => simp
  | cons a t ih =>
    refine List.pairwise_cons.2 ⟨?_, ih fun p hp => h p (by simp [hp])⟩
    intro q hq
    rw [h a (by simp), h q (by simp [hq])]

/-- Everything the invariant gives at an empty queue. -/
theorem levelsFinal_of_inv {blocks : List FlowBlock} {start : String}
    {levels : List (String × Nat)}
    (hinv : LevelsInv blocks start levels []) (hne : levels ≠ []) :
    LevelsFinal blocks start levels := by
  refine ⟨hinv.startDone hne, hinv.reachL, ?_, hinv.nodupKeys⟩
  intro w hw t ht
  rcases hinv.closure w hw t ht with ⟨l, hl, hle⟩ | ⟨l, hl, _⟩
  · exact ⟨l, hl, hle⟩
  · simp at hl

/-- Invariant preservation when the popped identifier already has a level. -/
theorem levelsInv_skip {blocks : List FlowBlock} {start bid : String} {lvl : Nat}
    {levels rest : List (String × Nat)}
    (hinv : LevelsInv blocks start levels ((bid, lvl) :: rest))
    (hassigned : (levels.lookup bid).isSome = true) :
    LevelsInv blocks start levels rest := by
  have hheadq : (bid, lvl) ∈ (bid, lvl) :: rest := List.mem_cons_self _ _
  refine ⟨(List.pairwise_cons.1 hinv.sorted).2, ?_, ?_, hinv.reachL, ?_, ?_,
    hinv.nodupKeys, ?_, hinv.startDone⟩
  · exact fun p hp q hq =>
      hinv.spread p (List.mem_cons_of_mem _ hp) q (List.mem_cons_of_mem _ hq)
  · exact fun w hw q hq => hinv.levelsLe w hw q (List.mem_cons_of_mem _ hq)
  · exact fun q hq => hinv.reachQ q (List.mem_cons_of_mem _ hq)
  · intro w hw t ht
    rcases hinv.closure w hw t ht with hL | ⟨l, hl, hle⟩
    · exact Or.inl hL
    · rcases List.mem_cons.1 hl with heq | hl2
      · injection heq with ht1 ht2
        subst ht1; subst ht2
        obtain ⟨l', hl'⟩ := Option.isSome_iff_exists.1 hassigned
        have hmem := mem_of_lookup_eq_some hl'
        exact Or.inl ⟨l', hmem, le_trans (hinv.levelsLe _ hmem _ hheadq) hle⟩
      · exact Or.inr ⟨l, hl2, hle⟩
  · intro h
    rw [h] at hassigned
    simp [List.lookup] at hassigned

/-- Invariant preservation when the popped identifier is new but matches
no block: it is assigned its level and nothing is enqueued. -/
theorem levelsInv_none {blocks : List FlowBlock} {start bid : String} {lvl : Nat}
    {levels rest : List (String × Nat)}
    (hinv : LevelsInv blocks start levels ((bid, lvl) :: rest))
    (hlook : levels.lookup bid = none)
    (hblock : get_block blocks bid = none) :
    LevelsInv blocks start (levels ++ [(bid, lvl)]) rest := by
  have hheadq : (bid, lvl) ∈ (bid, lvl) :: rest := List.mem_cons_self _ _
  refine ⟨(List.pairwise_cons.1 hinv.sorted).2, ?_, ?_, ?_, ?_, ?_, ?_, ?_, ?_⟩
  · exact fun p hp q hq =>
      hinv.spread p (List.mem_cons_of_mem _ hp) q (List.mem_cons_of_mem _ hq)
  · intro w hw q hq
    rcases List.mem_append.1 hw with hwold | hwnew
    · exact hinv.levelsLe w hwold q (List.mem_cons_of_mem _ hq)
    · have hw2 : w = (bid, lvl) := by simpa using hwnew
      subst hw2
      exact (List.pairwise_cons.1 hinv.sorted).1 q hq
  · intro w hw
    rcases List.mem_append.1 hw with hwold | hwnew
    · exact hinv.reachL w hwold
    · have hw2 : w = (bid, lvl) := by simpa using hwnew
      subst hw2
      exact hinv.reachQ _ hheadq
  · exact fun q hq => hinv.reachQ q (List.mem_cons_of_mem _ hq)
  · intro w hw t ht
    rcases List.mem_append.1 hw with hwold | hwnew
    · rcases hinv.closure w hwold t ht with ⟨l, hl, hle⟩ | ⟨l, hl, hle⟩
      · exact Or.inl ⟨l, List.mem_append_left _ hl, hle⟩
      · rcases List.mem_cons.1 hl with heq | hl2
        · injection heq with ht1 ht2
          exact Or.inl ⟨lvl, List.mem_append_right _ (by simp [ht1]), ht2 ▸ hle⟩
        · exact Or.inr ⟨l, hl2, hle⟩
    · have hw2 : w = (bid, lvl) := by simpa using hwnew
      subst hw2
      simp [targetIds, hblock] at ht
  · rw [List.map_append]
    refine List.nodup_append.2 ⟨hinv.nodupKeys, by simp, ?_⟩
    intro x hx hx2
    have hxbid : x = bid := by simpa using hx2
    subst hxbid
    exact absurd hx (lookup_eq_none_iff.1 hlook)
  · intro h
    simp at h
  · intro _
    by_cases hl : levels = []
    · have hq := hinv.startInit hl
      injection hq with h1 h2
      injection h1 with hb hv
      subst hb; subst hv
      exact List.mem_append_right _ (by simp)
    · exact List.mem_append_left _ (hinv.startDone hl)

/-- Invariant preservation in the main BFS step: the popped identifier is
new and matches a block; it is assigned its level and its unassigned
targets are enqueued one level deeper. -/
theorem levelsInv_some {blocks : List FlowBlock} {start bid : String} {lvl : Nat}
    {levels rest : List (String × Nat)} {b : FlowBlock}
    (hinv : LevelsInv blocks start levels ((bid, lvl) :: rest))
    (hlook : levels.lookup bid = none)
    (hblock : get_block blocks bid = some b) :
    LevelsInv blocks start (levels ++ [(bid, lvl)])
      (rest ++ (targetsOf b).filterMap
        (fun t => if ((levels ++ [(bid, lvl)]).lookup t).isSome then none
                  else some (t, lvl + 1))) := by
  have hheadq : (bid, lvl) ∈ (bid, lvl) :: rest := List.mem_cons_self _ _
  have htgt : targetIds blocks bid = targetsOf b := targetIds_of_get_block hblock
  set levels2 := levels ++ [(bid, lvl)] with hlevels2
  set newEntries := (targetsOf b).filterMap
      (fun t => if (levels2.lookup t).isSome then none else some (t, lvl + 1))
    with hnewdef
  have hnewMem : ∀ q ∈ newEntries, q.1 ∈ targetsOf b ∧ q.2 = lvl + 1 := by
    intro q hq
    rcases List.mem_filterMap.1 hq with ⟨t, ht, hfq⟩
    by_cases hs : (levels2.lookup t).isSome
    · simp [hs] at hfq
    · simp [hs] at hfq
      rw [← hfq]
      exact ⟨ht, rfl⟩
  have hnewCover : ∀ t ∈ targetsOf b,
      (∃ l, levels2.lookup t = some l) ∨ (t, lvl + 1) ∈ newEntries := by
    intro t ht
    by_cases hs : (levels2.lookup t).isSome
    · exact Or.inl (Option.isSome_iff_exists.1 hs)
    · exact Or.inr (List.mem_filterMap.2 ⟨t, ht, by simp [hs]⟩)
  have hrestSorted := (List.pairwise_cons.1 hinv.sorted).2
  have hheadRest := (List.pairwise_cons.1 hinv.sorted).1
  refine ⟨?_, ?_, ?_, ?_, ?_, ?_, ?_, ?_, ?_⟩
  · refine List.pairwise_append.2 ⟨hrestSorted,
      pairwise_of_const_snd (fun p hp => (hnewMem p hp).2), ?_⟩
    intro p hp q hq
    have hq2 := (hnewMem q hq).2
    have := hinv.spread p (List.mem_cons_of_mem _ hp) _ hheadq
    omega
  · intro p hp q hq
    rcases List.mem_append.1 hp with hp1 | hp1 <;>
      rcases List.mem_append.1 hq with hq1 | hq1
    · exact hinv.spread p (List.mem_cons_of_mem _ hp1) q (List.mem_cons_of_mem _ hq1)
    · have hq2 := (hnewMem q hq1).2
      have := hinv.spread p (List.mem_cons_of_mem _ hp1) _ hheadq
      omega
    · have hp2 := (hnewMem p hp1).2
      have := hheadRest q hq1
      omega
    · have hp2 := (hnewMem p hp1).2
      have hq2 := (hnewMem q hq1).2
      omega
  · intro w hw q hq
    rcases List.mem_append.1 hw with hw1 | hw1 <;>
      rcases List.mem_append.1 hq with hq1 | hq1
    · exact hinv.levelsLe w hw1 q (List.mem_cons_of_mem _ hq1)
    · have hq2 := (hnewMem q hq1).2
      have := hinv.levelsLe w hw1 _ hheadq
      omega
    · have hw2 : w = (bid, lvl) := by simpa using hw1
      subst hw2
      exact hheadRest q hq1
    · have hw2 : w = (bid, lvl) := by simpa using hw1
      subst hw2
      have hq2 := (hnewMem q hq1).2
      omega
  · intro w hw
    rcases List.mem_append.1 hw with hw1 | hw1
    · exact hinv.reachL w hw1
    · have hw2 : w = (bid, lvl) := by simpa using hw1
      subst hw2
      exact hinv.reachQ _ hheadq
  · intro q hq
    rcases List.mem_append.1 hq with hq1 | hq1
    · exact hinv.reachQ q (List.mem_cons_of_mem _ hq1)
    · obtain ⟨tq, lq⟩ := q
      obtain ⟨hq1t, hq1l⟩ := hnewMem _ hq1
      simp only at hq1t hq1l
      subst hq1l
      exact Reach.step (hinv.reachQ _ hheadq) (htgt ▸ hq1t)
  · intro w hw t ht
    rcases List.mem_append.1 hw with hw1 | hw1
    · rcases hinv.closure w hw1 t ht with ⟨l, hl, hle⟩ | ⟨l, hl, hle⟩
      · exact Or.inl ⟨l, List.mem_append_left _ hl, hle⟩
      · rcases List.mem_cons.1 hl with heq | hl2
        · injection heq with ht1 ht2
          exact Or.inl ⟨lvl, List.mem_append_right _ (by simp [ht1]), ht2 ▸ hle⟩
        · exact Or.inr ⟨l, List.mem_append_left _ hl2, hle⟩
    · have hw2 : w = (bid, lvl) := by simpa using hw1
      subst hw2
      rw [htgt] at ht
      rcases hnewCover t ht with ⟨l, hl⟩ | hmem
      · have hmem2 := mem_of_lookup_eq_some hl
        rcases List.mem_append.1 hmem2 with hold | hnew2
        · exact Or.inl ⟨l, List.mem_append_left _ hold,
            le_trans (hinv.levelsLe _ hold _ hheadq) (Nat.le_succ _)⟩
        · have : t = bid ∧ l = lvl := by simpa using hnew2
          exact Or.inl ⟨l, List.mem_append_right _ (by simp [this.1, this.2]),
            by omega⟩
      · exact Or.inr ⟨lvl + 1, List.mem_append_right _ hmem, le_refl _⟩
  · rw [List.map_append]
    refine List.nodup_append.2 ⟨hinv.nodupKeys, by simp, ?_⟩
    intro x hx hx2
    have hxbid : x = bid := by simpa using hx2
    subst hxbid
    exact absurd hx (lookup_eq_none_iff.1 hlook)
  · intro h
    rw [hlevels2] at h
    simp at h
  · intro _
    by_cases hl : levels = []
    · have hq := hinv.startInit hl
      injection hq with h1 h2
      injection h1 with hb hv
      subst hb; subst hv
      exact List.mem_append_right _ (by simp)
    · exact List.mem_append_left _ (hinv.startDone hl)

/-- Master run lemma: from any state satisfying the invariant, with fuel at
least the measure, the loop of `_assign_levels` drains its queue and its
result satisfies the end-state properties. -/
theorem assign_levels_aux_final (blocks : List FlowBlock) (start : String) :
    ∀ (fuel : Nat) (levels queue : List (String × Nat)),
      LevelsInv blocks start levels queue →
      levelsMeasure blocks levels queue ≤ fuel →
      levels ≠ [] ∨ queue ≠ [] →
      LevelsFinal blocks start (assign_levels_aux blocks fuel levels queue) := by
  intro fuel
  induction fuel with
  | zero =>
    intro levels queue hinv hm hne
    cases queue with
    | cons p rest =>
      exfalso
      simp [levelsMeasure] at hm
    | nil =>
      have hlev : levels ≠ [] := by
        rcases hne with h | h
        · exact h
        · exact absurd rfl h
      exact levelsFinal_of_inv hinv hlev
  | succ fuel ih =>
    intro levels queue hinv hm hne
    cases queue with
    | nil =>
      have hlev : levels ≠ [] := by
        rcases hne with h | h
        · exact h
        · exact absurd rfl h
      exact levelsFinal_of_inv hinv hlev
    | cons head rest =>
      obtain ⟨bid, lvl⟩ := head
      by_cases hassigned : (levels.lookup bid).isSome
      · have hred : assign_levels_aux blocks (fuel + 1) levels ((bid, lvl) :: rest)
            = assign_levels_aux blocks fuel levels rest := by
          simp [assign_levels_aux, hassigned]
        rw [hred]
        refine ih levels rest (levelsInv_skip hinv hassigned) ?_ ?_
        · simp only [levelsMeasure, List.length_cons] at hm ⊢
          omega
        · left
          intro h
          rw [h] at hassigned
          simp [List.lookup] at hassigned
      · have hlook : levels.lookup bid = none :=
          Option.not_isSome_iff_eq_none.1 (by simpa using hassigned)
        have himp : ∀ v ∈ levelsCand blocks,
            (((levels ++ [(bid, lvl)]).lookup v).isNone = true) →
            ((levels.lookup v).isNone = true) := by
          intro v _ h2
          cases hcase : levels.lookup v with
          | none => simp
          | some w =>
            rw [lookup_append_left hcase] at h2
            simp at h2
        cases hblock : get_block blocks bid with
        | none =>
          have hred : assign_levels_aux blocks (fuel + 1) levels ((bid, lvl) :: rest)
              = assign_levels_aux blocks fuel (levels ++ [(bid, lvl)]) rest := by
            simp [assign_levels_aux, hassigned, hblock]
          rw [hred]
          refine ih _ rest (levelsInv_none hinv hlook hblock) ?_ ?_
          · have hU := length_filter_mono himp
            have hmul := Nat.mul_le_mul_left (enqueueBound blocks) hU
            simp only [levelsMeasure, List.length_cons] at hm ⊢
            omega
          · left
            simp
        | some b =>
          have hred : assign_levels_aux blocks (fuel + 1) levels ((bid, lvl) :: rest)
              = assign_levels_aux blocks fuel (levels ++ [(bid, lvl)])
                  (rest ++ (targetsOf b).filterMap
                    (fun t => if ((levels ++ [(bid, lvl)]).lookup t).isSome then none
                              else some (t, lvl + 1))) := by
            simp [assign_levels_aux, hassigned, hblock]
          rw [hred]
          have hbmem := get_block_mem hblock
          refine ih _ _ (levelsInv_some hinv hlook hblock) ?_ ?_
          · -- fuel accounting for the main step
            have hbidCand : bid ∈ levelsCand blocks := by
              rw [levelsCand, List.mem_dedup]
              refine List.mem_append_left _ ?_
              rw [← hbmem.2]
              exact List.mem_map_of_mem _ hbmem.1
            have hq_at_bid : (((levels ++ [(bid, lvl)]).lookup bid).isNone) = false := by
              rw [lookup_append_right hlook]
              simp [List.lookup]
            have hp_at_bid : ((levels.lookup bid).isNone) = true := by
              simp [hlook]
            have hUstrict := length_filter_strict (List.nodup_dedup _)
              hbidCand hp_at_bid hq_at_bid himp
            have hmul : enqueueBound blocks *
                (((levelsCand blocks).filter
                  (fun v => (((levels ++ [(bid, lvl)]).lookup v).isNone))).length)
                + enqueueBound blocks ≤
                enqueueBound blocks *
                (((levelsCand blocks).filter
                  (fun v => ((levels.lookup v).isNone))).length) := by
              have h1 := Nat.mul_le_mul_left (enqueueBound blocks) hUstrict
              calc enqueueBound blocks *
                  (((levelsCand blocks).filter
                    (fun v => (((levels ++ [(bid, lvl)]).lookup v).isNone))).length)
                  + enqueueBound blocks
                  = enqueueBound blocks *
                  ((((levelsCand blocks).filter
                    (fun v => (((levels ++ [(bid, lvl)]).lookup v).isNone))).length) + 1) := by
                    ring
                _ ≤ _ := h1
            have hlen1 : ((targetsOf b).filterMap
                (fun t => if ((levels ++ [(bid, lvl)]).lookup t).isSome then none
                          else some (t, lvl + 1))).length ≤ (targetsOf b).length :=
              List.length_filterMap_le _ _
            have hlen2 : (targetsOf b).length + 2 ≤ enqueueBound blocks := by
              have := targets_length_le hbmem.1
              simp only [enqueueBound]
              omega
            simp only [levelsMeasure, List.length_cons, List.length_append] at hm ⊢
            omega
          · left
            simp

/-- End-state properties of `_assign_levels` hold for the wrapper. -/
theorem assign_levels_final (blocks : List FlowBlock) (start : String) :
    LevelsFinal blocks start (assign_levels blocks start) := by
  refine assign_levels_aux_final blocks start _ _ _ ?_ (le_refl _) (Or.inr (by simp))
  refine ⟨?_, ?_, ?_, ?_, ?_, ?_, ?_, ?_, ?_⟩
  · simp
  · intro p hp q hq
    have hp2 : p = (start, 0) := by simpa using hp
    have hq2 : q = (start, 0) := by simpa using hq
    subst hp2; subst hq2
    omega
  · intro w hw
    simp at hw
  · intro w hw
    simp at hw
  · intro q hq
    have hq2 : q = (start, 0) := by simpa using hq
    subst hq2
    exact Reach.refl
  · intro w hw
    simp at hw
  · simp
  · intro _
    rfl
  · intro h
    exact absurd rfl h

/-- Soundness: every level recorded by `_assign_levels` is the length of
an actual path from the start. -/
theorem assign_levels_sound {blocks : List FlowBlock} {start v : String} {l : Nat}
    (h : (v, l) ∈ assign_levels blocks start) : Reach blocks start v l :=
  (assign_levels_final blocks start).reach (v, l) h

/-- Completeness: every identifier reachable in `n` steps is assigned a
level, and that level is at most `n`. -/
theorem assign_levels_complete {blocks : List FlowBlock} {start v : String} {n : Nat}
    (h : Reach blocks start v n) :
    ∃ l, (v, l) ∈ assign_levels blocks start ∧ l ≤ n := by
  induction h with
  | refl => exact ⟨0, (assign_levels_final blocks start).startMem, le_refl 0⟩
  | step hr ht ihh =>
    obtain ⟨l, hl, hle⟩ := ihh
    obtain ⟨l', hl', hle'⟩ := (assign_levels_final blocks start).closure _ hl _ ht
    exact ⟨l', hl', by omega⟩

/-- Each identifier is assigned at most one level. -/
theorem assign_levels_nodup_keys (blocks : List FlowBlock) (start : String) :
    ((assign_levels blocks start).map Prod.fst).Nodup :=
  (assign_levels_final blocks start).nodupKeys

/-- The start identifier is assigned level 0. -/
theorem assign_levels_start_mem (blocks : List FlowBlock) (start : String) :
    (start, 0) ∈ assign_levels blocks start :=
  (assign_levels_final blocks start).startMem

/-- Minimality: an assigned level is at most the length of every path from
the start to that identifier. -/
theorem assign_levels_shortest {blocks : List FlowBlock} {start v : String}
    {l n : Nat} (hmem : (v, l) ∈ assign_levels blocks start)
    (h : Reach blocks start v n) : l ≤ n := by
  obtain ⟨l', hl', hle⟩ := assign_levels_complete h
  have h1 := lookup_eq_some_of_mem (assign_levels_nodup_keys blocks start) hmem
  have h2 := lookup_eq_some_of_mem (assign_levels_nodup_keys blocks start) hl'
  rw [h1] at h2
  injection h2 with h3
  omega

/-- The key set of `_assign_levels` is exactly the reachable set. -/
theorem assign_levels_keys_iff_reach {blocks : List FlowBlock} {start v : String} :
    (∃ l, (v, l) ∈ assign_levels blocks start) ↔
      ∃ n, Reach blocks start v n := by
  constructor
  · rintro ⟨l, hl⟩
    exact ⟨l, assign_levels_sound hl⟩
  · rintro ⟨n, hn⟩
    obtain ⟨l, hl, _⟩ := assign_levels_complete hn
    exact ⟨l, hl⟩

/-! ### Properties of the stable sort -/

theorem insertByKey_perm (key : α → Nat) (x : α) (l : List α) :
    List.Perm (insertByKey key x l) (x :: l) := by
  induction l with
  | nil => rfl
  | cons y ys ih =>
    by_cases h : key x ≤ key y
    · simp [insertByKey, h]
    · simp only [insertByKey, if_neg h]
      exact (ih.cons y).trans (List.Perm.swap x y ys)

theorem sortOn_perm (key : α → Nat) (l : List α) : List.Perm (sortOn key l) l := by
  induction l with
  | nil => rfl
  | cons x xs ih =>
    exact ((insertByKey_perm key x (sortOn key xs)).trans (ih.cons x))

theorem mem_sortOn {key : α → Nat} {l : List α} {a : α} :
    a ∈ sortOn key l ↔ a ∈ l :=
  (sortOn_perm key l).mem_iff

theorem sortOn_nodup {key : α → Nat} {l : List α} (h : l.Nodup) :
    (sortOn key l).Nodup :=
  (sortOn_perm key l).nodup_iff.2 h

theorem insertByKey_sorted {key : α → Nat} {l : List α} {x : α}
    (h : List.Pairwise (fun a b => key a ≤ key b) l) :
    List.Pairwise (fun a b => key a ≤ key b) (insertByKey key x l) := by
  induction l with
  | nil => simp [insertByKey]
  | cons y ys ih =>
    rcases List.pairwise_cons.1 h with ⟨hy, hys⟩
    by_cases hxy : key x ≤ key y
    · simp only [insertByKey, if_pos hxy]
      refine List.pairwise_cons.2 ⟨?_, h⟩
      intro b hb
      rcases List.mem_cons.1 hb with hb1 | hb1
      · subst hb1; exact hxy
      · exact le_trans hxy (hy b hb1)
    · simp only [insertByKey, if_neg hxy]
      refine List.pairwise_cons.2 ⟨?_, ih hys⟩
      intro b hb
      have hb2 := (insertByKey_perm key x ys).mem_iff.1 hb
      rcases List.mem_cons.1 hb2 with hb1 | hb1
      · subst hb1; omega
      · exact hy b hb1

theorem sortOn_sorted (key : α → Nat) (l : List α) :
    List.Pairwise (fun a b => key a ≤ key b) (sortOn key l) := by
  induction l with
  | nil => simp [sortOn]
  | cons x xs ih => exact insertByKey_sorted ih

theorem sortOn_sorted_nat (l : List Nat) :
    List.Pairwise (· ≤ ·) (sortOn (fun r => r) l) :=
  sortOn_sorted (fun r => r) l

/-- A sorted deduplicated list is strictly sorted. -/
theorem sortOn_nat_strict {l : List Nat} (h : l.Nodup) :
    List.Pairwise (· < ·) (sortOn (fun r => r) l) := by
  have h1 := sortOn_sorted_nat l
  have h2 : (sortOn (fun r => r) l).Nodup := sortOn_nodup h
  have := List.Pairwise.and h1 h2
  exact this.imp (fun hab => lt_of_le_of_ne hab.1 hab.2)

/-- The head of a sorted list containing a lower bound element is that
element. -/
theorem sorted_head_of_min {l : List Nat} {a : Nat}
    (hs : List.Pairwise (· ≤ ·) l) (ha : a ∈ l) (hmin : ∀ b ∈ l, a ≤ b) :
    ∃ t, l = a :: t := by
  cases l with
  | nil => simp at ha
  | cons h t =>
    rcases List.mem_cons.1 ha with h1 | h1
    · exact ⟨t, by rw [h1]⟩
    · have h2 := (List.pairwise_cons.1 hs).1 a h1
      have h3 := hmin h (by simp)
      have : h = a := by omega
      exact ⟨t, by rw [this]⟩

/-! ### Correctness of the row assignment -/

theorem length_filter_lvl_lt {used : List (Nat × Nat)} {lvl row : Nat}
    (h : (lvl, row) ∈ used) :
    (used.filter (fun p => p.1 == lvl && decide (row + 1 ≤ p.2))).length <
    (used.filter (fun p => p.1 == lvl && decide (row ≤ p.2))).length := by
  induction used with
  | nil => simp at h
  | cons c t ih =>
    have hmono : ∀ x ∈ t, (x.1 == lvl && decide (row + 1 ≤ x.2)) = true →
        (x.1 == lvl && decide (row ≤ x.2)) = true := by
      intro x _ hx
      simp only [Bool.and_eq_true, decide_eq_true_eq] at hx ⊢
      exact ⟨hx.1, by omega⟩
    rcases List.mem_cons.1 h with h1 | h1
    · subst h1
      have hmono2 := length_filter_mono hmono
      simp only [List.filter_cons]
      have hc1 : (((lvl, row).1 == lvl && decide (row ≤ (lvl, row).2))) = true := by
        simp
      have hc2 : (((lvl, row).1 == lvl && decide (row + 1 ≤ (lvl, row).2))) = false := by
        simp
      rw [hc1, hc2]
      simp
      omega
    · have := ih h1
      simp only [List.filter_cons]
      by_cases hc1 : (c.1 == lvl && decide (row + 1 ≤ c.2)) = true
      · have hc2 : (c.1 == lvl && decide (row ≤ c.2)) = true := by
          simp only [Bool.and_eq_true, decide_eq_true_eq] at hc1 ⊢
          exact ⟨hc1.1, by omega⟩
        rw [hc1, hc2]
        simp
        omega
      · rw [Bool.not_eq_true] at hc1
        rw [hc1]
        by_cases hc2 : (c.1 == lvl && decide (row ≤ c.2)) = true
        · rw [hc2]
          simp
          omega
        · rw [Bool.not_eq_true] at hc2
          rw [hc2]
          simp
          omega

theorem find_free_row_spec {used : List (Nat × Nat)} {lvl : Nat} :
    ∀ fuel row,
      (used.filter (fun p => p.1 == lvl && decide (row ≤ p.2))).length < fuel →
      (lvl, find_free_row used lvl fuel row) ∉ used ∧
      row ≤ find_free_row used lvl fuel row := by
  intro fuel
  induction fuel with
  | zero =>
    intro row h
    exact absurd h (Nat.not_lt_zero _)
  | succ fuel ih =>
    intro row h
    by_cases hm : (lvl, row) ∈ used
    · have hdec := length_filter_lvl_lt hm
      simp only [find_free_row, if_pos hm]
      obtain ⟨h3, h4⟩ := ih (row + 1) (by omega)
      exact ⟨h3, by omega⟩
    · simp only [find_free_row, if_neg hm]
      exact ⟨hm, le_refl row⟩

theorem find_free_row_call (used : List (Nat × Nat)) (lvl minRow : Nat) :
    (lvl, find_free_row used lvl (used.length + 1) minRow) ∉ used ∧
    minRow ≤ find_free_row used lvl (used.length + 1) minRow := by
  apply find_free_row_spec
  have := List.length_filter_le
    (fun p : Nat × Nat => p.1 == lvl && decide (minRow ≤ p.2)) used
  omega

/-- Shape of one row-assignment step: exactly one row entry and one used
slot are appended, and the assigned slot was free at this level. -/
theorem assign_rows_step_shape (blocks : List FlowBlock) (lvl : Nat)
    (st : RowState) (bid : String) :
    ∃ r, assign_rows_step blocks lvl st bid
        = (st.1 ++ [(bid, r)], st.2 ++ [(lvl, r)]) ∧ (lvl, r) ∉ st.2 := by
  cases hnap : next_action_parent blocks bid with
  | none =>
    refine ⟨find_free_row st.2 lvl (st.2.length + 1) (get_parent_row blocks st.1 bid),
      ?_, (find_free_row_call st.2 lvl _).1⟩
    simp only [assign_rows_step, hnap]
  | some p =>
    cases hlp : st.1.lookup p with
    | none =>
      refine ⟨find_free_row st.2 lvl (st.2.length + 1) (get_parent_row blocks st.1 bid),
        ?_, (find_free_row_call st.2 lvl _).1⟩
      simp only [assign_rows_step, hnap, hlp]
    | some desired =>
      by_cases hdm : (lvl, desired) ∈ st.2
      · refine ⟨find_free_row st.2 lvl (st.2.length + 1) (get_parent_row blocks st.1 bid),
          ?_, (find_free_row_call st.2 lvl _).1⟩
        simp only [assign_rows_step, hnap, hlp, if_pos hdm]
      · refine ⟨desired, ?_, hdm⟩
        simp only [assign_rows_step, hnap, hlp, if_neg hdm]

theorem rowsInv_step (blocks : List FlowBlock) {levels : List (String × Nat)}
    {lvl : Nat} {st : RowState} {bid : String}
    (hinv : RowsInv levels st)
    (hlev : levels.lookup bid = some lvl)
    (hnotin : bid ∉ st.1.map Prod.fst) :
    RowsInv levels (assign_rows_step blocks lvl st bid) ∧
    (assign_rows_step blocks lvl st bid).1.map Prod.fst
      = st.1.map Prod.fst ++ [bid] := by
  obtain ⟨r, heq, hfree⟩ := assign_rows_step_shape blocks lvl st bid
  rw [heq]
  refine ⟨⟨?_, ?_, ?_⟩, by simp⟩
  · rw [List.map_append]
    refine List.nodup_append.2 ⟨hinv.keysNodup, by simp, ?_⟩
    intro x hx hx2
    have : x = bid := by simpa using hx2
    subst this
    exact hnotin hx
  · intro p hp
    rcases List.mem_append.1 hp with hp1 | hp1
    · obtain ⟨l, hl1, hl2⟩ := hinv.usedMem p hp1
      exact ⟨l, hl1, List.mem_append_left _ hl2⟩
    · have : p = (bid, r) := by simpa using hp1
      subst this
      exact ⟨lvl, hlev, List.mem_append_right _ (by simp)⟩
  · intro p hp q hq hne hlk
    rcases List.mem_append.1 hp with hp1 | hp1 <;>
      rcases List.mem_append.1 hq with hq1 | hq1
    · exact hinv.distinct p hp1 q hq1 hne hlk
    · have hq2 : q = (bid, r) := by simpa using hq1
      subst hq2
      obtain ⟨l, hl1, hl2⟩ := hinv.usedMem p hp1
      rw [hl1, hlev] at hlk
      injection hlk with hlk2
      subst hlk2
      intro hcon
      rw [hcon] at hl2
      exact hfree hl2
    · have hp2 : p = (bid, r) := by simpa using hp1
      subst hp2
      obtain ⟨l, hl1, hl2⟩ := hinv.usedMem q hq1
      rw [hl1, hlev] at hlk
      injection hlk with hlk2
      subst hlk2
      intro hcon
      rw [← hcon] at hl2
      exact hfree hl2
    · have hp2 : p = (bid, r) := by simpa using hp1
      have hq2 : q = (bid, r) := by simpa using hq1
      subst hp2; subst hq2
      simp at hne

theorem rowsInv_fold (blocks : List FlowBlock) {levels : List (String × Nat)}
    {lvl : Nat} :
    ∀ (todo : List String) (st : RowState),
    RowsInv levels st →
    (∀ b ∈ todo, levels.lookup b = some lvl) →
    (∀ b ∈ todo, b ∉ st.1.map Prod.fst) →
    todo.Nodup →
    RowsInv levels (todo.foldl (assign_rows_step blocks lvl) st) ∧
    (todo.foldl (assign_rows_step blocks lvl) st).1.map Prod.fst
      = st.1.map Prod.fst ++ todo := by
  intro todo
  induction todo with
  | nil =>
    intro st hinv _ _ _
    exact ⟨hinv, by simp⟩
  | cons b rest ih =>
    intro st hinv hlevs hnotin hnd
    obtain ⟨hinv2, hkeys⟩ :=
      rowsInv_step blocks hinv (hlevs b (by simp)) (hnotin b (by simp))
    rw [List.foldl_cons]
    have hrest := ih (assign_rows_step blocks lvl st b) hinv2
      (fun x hx => hlevs x (by simp [hx]))
      (fun x hx => by
        rw [hkeys]
        intro hmem
        rcases List.mem_append.1 hmem with h1 | h1
        · exact hnotin x (by simp [hx]) h1
        · have : x = b := by simpa using h1
          subst this
          exact (List.nodup_cons.1 hnd).1 hx)
      (List.nodup_cons.1 hnd).2
    refine ⟨hrest.1, ?_⟩
    rw [hrest.2, hkeys, List.append_assoc]
    rfl

theorem mem_level_group {levels : List (String × Nat)} {lvl : Nat} {b : String} :
    b ∈ level_group levels lvl ↔ (b, lvl) ∈ levels := by
  constructor
  · intro h
    rcases List.mem_map.1 h with ⟨p, hp, hpb⟩
    rcases List.mem_filter.1 hp with ⟨hp1, hp2⟩
    have : p.2 = lvl := by simpa using hp2
    have hpeq : p = (b, lvl) := by
      obtain ⟨p1, p2⟩ := p
      simp at hpb this
      simp [hpb, this]
    rw [← hpeq]
    exact hp1
  · intro h
    refine List.mem_map.2 ⟨(b, lvl), List.mem_filter.2 ⟨h, by simp⟩, rfl⟩

theorem level_group_nodup {levels : List (String × Nat)} {lvl : Nat}
    (hnd : (levels.map Prod.fst).Nodup) : (level_group levels lvl).Nodup := by
  have hsub : List.Sublist (level_group levels lvl) (levels.map Prod.fst) :=
    (List.filter_sublist levels).map Prod.fst
  exact hnd.sublist hsub

theorem rowsInv_outer (blocks : List FlowBlock) {levels : List (String × Nat)}
    (hnd : (levels.map Prod.fst).Nodup) :
    ∀ (lvls : List Nat) (st : RowState),
    RowsInv levels st →
    lvls.Nodup →
    (∀ v ∈ st.1.map Prod.fst, ∀ l, levels.lookup v = some l → l ∉ lvls) →
    RowsInv levels
      (lvls.foldl (fun s lvl => assign_rows_level blocks levels lvl s) st) ∧
    (∀ v lvl, (v, lvl) ∈ levels → lvl ∈ lvls →
      v ∈ (lvls.foldl (fun s lvl => assign_rows_level blocks levels lvl s) st).1.map
        Prod.fst) ∧
    (∀ v ∈ st.1.map Prod.fst,
      v ∈ (lvls.foldl (fun s lvl => assign_rows_level blocks levels lvl s) st).1.map
        Prod.fst) := by
  intro lvls
  induction lvls with
  | nil =>
    intro st hinv _ _
    refine ⟨hinv, ?_, ?_⟩
    · intro v lvl _ h
      simp at h
    · intro v hv
      simpa using hv
  | cons lvl rest ih =>
    intro st hinv hndl hdisj
    rw [List.foldl_cons]
    have htodo : ∀ b, b ∈ sortOn (fun bid => get_parent_row blocks st.1 bid)
        (level_group levels lvl) ↔ (b, lvl) ∈ levels := by
      intro b
      rw [mem_sortOn, mem_level_group]
    have hstep := rowsInv_fold blocks
      (sortOn (fun bid => get_parent_row blocks st.1 bid) (level_group levels lvl)) st
      hinv
      (fun b hb => lookup_eq_some_of_mem hnd ((htodo b).1 hb))
      (fun b hb hbk => hdisj b hbk lvl
        (lookup_eq_some_of_mem hnd ((htodo b).1 hb)) (by simp))
      (sortOn_nodup (level_group_nodup hnd))
    rw [show assign_rows_level blocks levels lvl st
        = (sortOn (fun bid => get_parent_row blocks st.1 bid)
            (level_group levels lvl)).foldl (assign_rows_step blocks lvl) st from rfl]
      at *
    set st2 := (sortOn (fun bid => get_parent_row blocks st.1 bid)
      (level_group levels lvl)).foldl (assign_rows_step blocks lvl) st with hst2
    have hdisj2 : ∀ v ∈ st2.1.map Prod.fst, ∀ l, levels.lookup v = some l →
        l ∉ rest := by
      intro v hv l hl
      rw [hstep.2] at hv
      rcases List.mem_append.1 hv with h1 | h1
      · have := hdisj v h1 l hl
        intro hc
        exact this (by simp [hc])
      · have hvl : (v, lvl) ∈ levels := (htodo v).1 h1
        have : levels.lookup v = some lvl := lookup_eq_some_of_mem hnd hvl
        rw [this] at hl
        injection hl with hl2
        subst hl2
        exact (List.nodup_cons.1 hndl).1
    have hrest := ih st2 hstep.1 (List.nodup_cons.1 hndl).2 hdisj2
    refine ⟨hrest.1, ?_, ?_⟩
    · intro v l hvl hlmem
      rcases List.mem_cons.1 hlmem with h1 | h1
      · subst h1
        refine hrest.2.2 v ?_
        rw [hstep.2]
        exact List.mem_append_right _ ((htodo v).2 hvl)
      · exact hrest.2.1 v l hvl h1
    · intro v hv
      refine hrest.2.2 v ?_
      rw [hstep.2]
      exact List.mem_append_left _ hv

/-- End-to-end properties of `_assign_rows` (for a levels mapping with
unique keys, as `_assign_levels` produces): every leveled identifier gets
exactly one row, every rowed identifier is leveled, and two distinct
identifiers at the same level get distinct rows. -/
theorem assign_rows_spec (blocks : List FlowBlock) {levels : List (String × Nat)}
    (hnd : (levels.map Prod.fst).Nodup) :
    ((assign_rows blocks levels).map Prod.fst).Nodup ∧
    (∀ p ∈ assign_rows blocks levels, ∃ l, levels.lookup p.1 = some l) ∧
    (∀ p ∈ assign_rows blocks levels, ∀ q ∈ assign_rows blocks levels,
      p.1 ≠ q.1 → levels.lookup p.1 = levels.lookup q.1 → p.2 ≠ q.2) ∧
    (∀ v lvl, (v, lvl) ∈ levels → v ∈ (assign_rows blocks levels).map Prod.fst) := by
  have hbase : RowsInv levels (([], []) : RowState) := by
    refine ⟨by simp, ?_, ?_⟩
    · intro p hp
      simp at hp
    · intro p hp
      simp at hp
  have h := rowsInv_outer blocks hnd
    (sortOn (fun l => l) ((levels.map (fun p => p.2)).dedup)) ([], [])
    hbase (sortOn_nodup (List.nodup_dedup _)) (by intro v hv; simp at hv)
  rw [show assign_rows blocks levels
      = ((sortOn (fun l => l) ((levels.map (fun p => p.2)).dedup)).foldl
          (fun s lvl => assign_rows_level blocks levels lvl s) ([], [])).1 from rfl]
  refine ⟨h.1.keysNodup, ?_, h.1.distinct, ?_⟩
  · intro p hp
    obtain ⟨l, hl, _⟩ := h.1.usedMem p hp
    exact ⟨l, hl⟩
  · intro v lvl hvl
    refine h.2.1 v lvl hvl ?_
    rw [mem_sortOn, List.mem_dedup]
    exact List.mem_map.2 ⟨(v, lvl), hvl, rfl⟩

/-! ### Properties of row compaction -/

theorem mem_uniqueRowsOf {rows : List (String × Nat)} {a : Nat} :
    a ∈ uniqueRowsOf rows ↔ a ∈ rows.map (fun p => p.2) := by
  rw [uniqueRowsOf, mem_sortOn, List.mem_dedup]

theorem uniqueRowsOf_nodup (rows : List (String × Nat)) :
    (uniqueRowsOf rows).Nodup :=
  sortOn_nodup (List.nodup_dedup _)

theorem uniqueRowsOf_strict (rows : List (String × Nat)) :
    List.Pairwise (· < ·) (uniqueRowsOf rows) :=
  sortOn_nat_strict (List.nodup_dedup _)

theorem compact_rows_eq {rows : List (String × Nat)} (h : rows ≠ []) :
    compact_rows rows
      = rows.map (fun p => (p.1, (uniqueRowsOf rows).indexOf p.2)) := by
  cases rows with
  | nil => exact absurd rfl h
  | cons a t => rfl

/-- Index lookup is strictly monotone on a strictly sorted list. -/
theorem indexOf_lt_iff_of_strict {u : List Nat}
    (hstrict : List.Pairwise (· < ·) u) {a b : Nat} (ha : a ∈ u) (hb : b ∈ u) :
    u.indexOf a < u.indexOf b ↔ a < b := by
  have hget := List.pairwise_iff_get.1 hstrict
  have hia := List.indexOf_lt_length.2 ha
  have hib := List.indexOf_lt_length.2 hb
  constructor
  · intro hlt
    have := hget ⟨u.indexOf a, hia⟩ ⟨u.indexOf b, hib⟩ hlt
    rwa [List.indexOf_get, List.indexOf_get] at this
  · intro hab
    rcases Nat.lt_trichotomy (u.indexOf a) (u.indexOf b) with h | h | h
    · exact h
    · exfalso
      have : a = b := (List.indexOf_inj ha hb).1 h
      omega
    · exfalso
      have := hget ⟨u.indexOf b, hib⟩ ⟨u.indexOf a, hia⟩ h
      rw [List.indexOf_get, List.indexOf_get] at this
      omega

/-- Looking up in an association list whose values were rewritten by `f`. -/
theorem lookup_map_value {α β γ : Type} [BEq α] (f : β → γ)
    (l : List (α × β)) (k : α) :
    (l.map (fun p => (p.1, f p.2))).lookup k = (l.lookup k).map f := by
  induction l with
  | nil => simp [List.lookup]
  | cons p t ih =>
    rcases p with ⟨a, b⟩
    by_cases h : k == a <;> simp [List.lookup, h, ih]

/-- The value set after compaction is an initial segment of ℕ: exactly the
indices below the number of distinct row values. -/
theorem compact_rows_values {rows : List (String × Nat)} {i : Nat} :
    i ∈ (compact_rows rows).map (fun p => p.2) ↔ i < (uniqueRowsOf rows).length := by
  cases hrows : rows with
  | nil => simp [compact_rows, uniqueRowsOf, sortOn]
  | cons a t =>
    rw [← hrows, compact_rows_eq (by rw [hrows]; simp), List.map_map]
    constructor
    · intro h
      rcases List.mem_map.1 h with ⟨p, hp, hpi⟩
      have hmem : p.2 ∈ uniqueRowsOf rows :=
        mem_uniqueRowsOf.2 (List.mem_map.2 ⟨p, hp, rfl⟩)
      have hlen := List.indexOf_lt_length.2 hmem
      simp only [Function.comp] at hpi
      omega
    · intro h
      have hmem : (uniqueRowsOf rows).get ⟨i, h⟩ ∈ uniqueRowsOf rows :=
        List.get_mem _ _ _
      have hvals := mem_uniqueRowsOf.1 hmem
      rcases List.mem_map.1 hvals with ⟨p, hp, hpv⟩
      refine List.mem_map.2 ⟨p, hp, ?_⟩
      simp only [Function.comp]
      rw [hpv]
      have := List.indexOf_getElem (uniqueRowsOf_nodup rows) i h
      simpa using this

/-! ### Properties of the cumulative y positions -/

theorem row_y_fold_shape (H : Nat → Nat) :
    ∀ (rs : List Nat) (acc : List (Nat × Nat)) (y0 : Nat),
    ∃ ext : List (Nat × Nat),
      (rs.foldl (fun st r => (st.1 ++ [(r, st.2)], st.2 + H r)) (acc, y0)).1
        = acc ++ ext ∧ ext.map Prod.fst = rs := by
  intro rs
  induction rs with
  | nil => exact fun acc y0 => ⟨[], by simp⟩
  | cons a t ih =>
    intro acc y0
    obtain ⟨ext, hext, hkeys⟩ := ih (acc ++ [(a, y0)]) (y0 + H a)
    refine ⟨(a, y0) :: ext, ?_, by simp [hkeys]⟩
    rw [List.foldl_cons]
    rw [hext, List.append_assoc]
    rfl

theorem row_y_fold_lookup (H : Nat → Nat) :
    ∀ (rs : List Nat) (acc : List (Nat × Nat)) (y0 : Nat) (r : Nat),
    List.Pairwise (· < ·) rs →
    (∀ x ∈ rs, acc.lookup x = none) →
    r ∈ rs →
    (rs.foldl (fun st x => (st.1 ++ [(x, st.2)], st.2 + H x)) (acc, y0)).1.lookup r
      = some (y0 + ((rs.filter (fun x => decide (x < r))).map H).sum) := by
  intro rs
  induction rs with
  | nil =>
    intro acc y0 r _ _ hr
    simp at hr
  | cons a t ih =>
    intro acc y0 r hstrict hacc hr
    rcases List.pairwise_cons.1 hstrict with ⟨halt, ht⟩
    rw [List.foldl_cons]
    rcases List.mem_cons.1 hr with h1 | h1
    · subst h1
      have hnt : r ∉ t := fun hmem => absurd (halt r hmem) (lt_irrefl r)
      obtain ⟨ext, hext, hkeys⟩ := row_y_fold_shape H t (acc ++ [(r, y0)]) (y0 + H r)
      rw [hext]
      have hfilter : (r :: t).filter (fun x => decide (x < r)) = [] := by
        rw [List.filter_cons]
        rw [if_neg (by simp)]
        rw [List.filter_eq_nil_iff]
        intro x hx
        have := halt x hx
        simp
        omega
      rw [hfilter]
      simp only [List.map_nil, List.sum_nil, Nat.add_zero]
      have hlook1 : (acc ++ [(r, y0)]).lookup r = some y0 := by
        rw [lookup_append_right (hacc r (by simp))]
        simp [List.lookup]
      rw [lookup_append_left hlook1]
    · have har : a < r := halt r h1
      rw [ih (acc ++ [(a, y0)]) (y0 + H a) r ht ?_ h1]
      · have hfilter : (a :: t).filter (fun x => decide (x < r))
            = a :: t.filter (fun x => decide (x < r)) := by
          rw [List.filter_cons, if_pos (by simp [har])]
        rw [hfilter]
        simp only [List.map_cons, List.sum_cons]
        congr 1
        omega
      · intro x hx
        rw [lookup_append_right (hacc x (by simp [hx]))]
        have hxa : ¬ x == a := by
          have := halt x hx
          simp
          omega
        simp [List.lookup, hxa]

theorem foldl_max_init_le {α : Type} (g : α → Nat) :
    ∀ (l : List α) (a : Nat), a ≤ l.foldl (fun acc x => max acc (g x)) a := by
  intro l
  induction l with
  | nil => intro a; simp
  | cons x t ih =>
    intro a
    rw [List.foldl_cons]
    exact le_trans (le_max_left a (g x)) (ih (max a (g x)))

/-- Every row height is at least the minimum vertical spacing. -/
theorem row_height_ge (blocks : List FlowBlock) (rows : List (String × Nat))
    (r : Nat) : VERTICAL_SPACING_MIN ≤ row_height blocks rows r :=
  foldl_max_init_le _ _ _

theorem sum_filter_lt_mono (H : Nat → Nat) {r1 r2 : Nat} (h12 : r1 ≤ r2) :
    ∀ rs : List Nat,
    ((rs.filter (fun x => decide (x < r1))).map H).sum ≤
    ((rs.filter (fun x => decide (x < r2))).map H).sum := by
  intro rs
  induction rs with
  | nil => simp
  | cons a t ih =>
    by_cases ha1 : a < r1
    · rw [List.filter_cons, if_pos (by simpa using ha1),
        List.filter_cons, if_pos (by simp; omega)]
      simp only [List.map_cons, List.sum_cons]
      omega
    · rw [List.filter_cons, if_neg (by simpa using ha1)]
      by_cases ha2 : a < r2
      · rw [List.filter_cons, if_pos (by simpa using ha2)]
        simp only [List.map_cons, List.sum_cons]
        omega
      · rw [List.filter_cons, if_neg (by simpa using ha2)]
        exact ih

theorem sum_filter_lt_strict {H : Nat → Nat}
    (hH : ∀ x, VERTICAL_SPACING_MIN ≤ H x) {r1 r2 : Nat} (h12 : r1 < r2) :
    ∀ rs : List Nat, r1 ∈ rs →
    ((rs.filter (fun x => decide (x < r1))).map H).sum + VERTICAL_SPACING_MIN ≤
    ((rs.filter (fun x => decide (x < r2))).map H).sum := by
  intro rs
  induction rs with
  | nil => intro h; simp at h
  | cons a t ih =>
    intro hr
    by_cases ha1 : a < r1
    · have ha2 : a < r2 := by omega
      rw [List.filter_cons, if_pos (by simpa using ha1),
        List.filter_cons, if_pos (by simpa using ha2)]
      simp only [List.map_cons, List.sum_cons]
      have hr1t : r1 ∈ t := by
        rcases List.mem_cons.1 hr with h | h
        · omega
        · exact h
      have := ih hr1t
      omega
    · rw [List.filter_cons, if_neg (by simpa using ha1)]
      by_cases ha2 : a < r2
      · rw [List.filter_cons, if_pos (by simpa using ha2)]
        simp only [List.map_cons, List.sum_cons]
        have := sum_filter_lt_mono H (le_of_lt h12) t
        have := hH a
        omega
      · rw [List.filter_cons, if_neg (by simpa using ha2)]
        have hr1t : r1 ∈ t := by
          rcases List.mem_cons.1 hr with h | h
          · omega
          · exact h
        exact ih hr1t

/-- Closed form of the `row_y_positions` dict: the y of a used row is
`START_Y` plus the heights of all strictly smaller used rows. -/
theorem row_y_list_lookup {blocks : List FlowBlock} {rows : List (String × Nat)}
    {r : Nat} (hr : r ∈ rows.map (fun p => p.2)) :
    (row_y_list blocks rows).lookup r
      = some (START_Y + (((uniqueRowsOf rows).filter (fun x => decide (x < r))).map
          (row_height blocks rows)).sum) := by
  rw [show row_y_list blocks rows
      = ((uniqueRowsOf rows).foldl
          (fun st x => (st.1 ++ [(x, st.2)], st.2 + row_height blocks rows x))
          ([], START_Y)).1 from rfl]
  exact row_y_fold_lookup (row_height blocks rows) (uniqueRowsOf rows) [] START_Y r
    (uniqueRowsOf_strict rows) (fun x _ => rfl) (mem_uniqueRowsOf.2 hr)

/-- Strict monotonicity of the y positions in the row index. -/
theorem row_y_strict_mono {blocks : List FlowBlock} {rows : List (String × Nat)}
    {r1 r2 y1 y2 : Nat}
    (h1 : r1 ∈ rows.map (fun p => p.2)) (h2 : r2 ∈ rows.map (fun p => p.2))
    (h12 : r1 < r2)
    (hy1 : (row_y_list blocks rows).lookup r1 = some y1)
    (hy2 : (row_y_list blocks rows).lookup r2 = some y2) : y1 < y2 := by
  rw [row_y_list_lookup h1] at hy1
  rw [row_y_list_lookup h2] at hy2
  injection hy1 with hy1
  injection hy2 with hy2
  have hstrict := sum_filter_lt_strict (fun x => row_height_ge blocks rows x) h12
    (uniqueRowsOf rows) (mem_uniqueRowsOf.2 h1)
  have : (0:Nat) < VERTICAL_SPACING_MIN := by norm_num [VERTICAL_SPACING_MIN]
  omega

/-! ### End-to-end characterization of `calculate_positions` -/

theorem calculate_positions_some_eq {blocks : List FlowBlock} {s : String}
    (hs : s ≠ "") :
    calculate_positions blocks (some s)
      = (assign_levels blocks s).map (fun p =>
          (p.1, Pos.mk (START_X + p.2 * HORIZONTAL_SPACING)
            (((row_y_list blocks
                (compact_rows (assign_rows blocks (assign_levels blocks s)))).lookup
              (((compact_rows (assign_rows blocks
                (assign_levels blocks s))).lookup p.1).getD 0)).getD 0))) := by
  simp only [calculate_positions]
  rw [if_neg hs]

theorem calculate_positions_keys {blocks : List FlowBlock} {s : String}
    (hs : s ≠ "") :
    (calculate_positions blocks (some s)).map Prod.fst
      = (assign_levels blocks s).map Prod.fst := by
  rw [calculate_positions_some_eq hs, List.map_map]
  rfl

theorem calculate_positions_nodup_keys (blocks : List FlowBlock) {s : String}
    (hs : s ≠ "") :
    ((calculate_positions blocks (some s)).map Prod.fst).Nodup := by
  rw [calculate_positions_keys hs]
  exact assign_levels_nodup_keys blocks s

/-- Master form of a positioned entry: every leveled identifier is
positioned, with its x determined by the level and its y looked up from
the cumulative row heights at its compacted row. -/
theorem positions_master {blocks : List FlowBlock} {s : String} (hs : s ≠ "")
    {v : String} {l : Nat} (hv : (v, l) ∈ assign_levels blocks s) :
    ∃ r y,
      (compact_rows (assign_rows blocks (assign_levels blocks s))).lookup v
        = some r ∧
      (row_y_list blocks
        (compact_rows (assign_rows blocks (assign_levels blocks s)))).lookup r
        = some y ∧
      (v, Pos.mk (START_X + l * HORIZONTAL_SPACING) y)
        ∈ calculate_positions blocks (some s) ∧
      r ∈ (compact_rows (assign_rows blocks (assign_levels blocks s))).map
        (fun p => p.2) := by
  have hnd := assign_levels_nodup_keys blocks s
  have hspec := assign_rows_spec blocks hnd
  have hkey := hspec.2.2.2 v l hv
  rcases List.mem_map.1 hkey with ⟨p, hp, hpv⟩
  have hlook0 : (assign_rows blocks (assign_levels blocks s)).lookup v = some p.2 := by
    rw [← hpv]
    exact lookup_eq_some_of_mem hspec.1 (by simpa using hp)
  have hne : assign_rows blocks (assign_levels blocks s) ≠ [] := by
    intro hcon
    rw [hcon] at hlook0
    simp [List.lookup] at hlook0
  have hcompact : (compact_rows (assign_rows blocks (assign_levels blocks s))).lookup v
      = some ((uniqueRowsOf (assign_rows blocks (assign_levels blocks s))).indexOf p.2) := by
    rw [compact_rows_eq hne,
      lookup_map_value
        (fun x => List.indexOf x (uniqueRowsOf (assign_rows blocks (assign_levels blocks s))))
        (assign_rows blocks (assign_levels blocks s)) v,
      hlook0]
    rfl
  set r := (uniqueRowsOf (assign_rows blocks (assign_levels blocks s))).indexOf p.2
    with hrdef
  have hrmem : r ∈ (compact_rows (assign_rows blocks (assign_levels blocks s))).map
      (fun p => p.2) :=
    List.mem_map.2 ⟨(v, r), mem_of_lookup_eq_some hcompact, rfl⟩
  refine ⟨r, START_Y + (((uniqueRowsOf (compact_rows (assign_rows blocks
      (assign_levels blocks s)))).filter (fun x => decide (x < r))).map
      (row_height blocks (compact_rows (assign_rows blocks
      (assign_levels blocks s))))).sum, hcompact, row_y_list_lookup hrmem, ?_, hrmem⟩
  rw [calculate_positions_some_eq hs]
  refine List.mem_map.2 ⟨(v, l), hv, ?_⟩
  simp only
  rw [hcompact]
  simp only [Option.getD_some]
  rw [row_y_list_lookup hrmem]
  rfl

/-- Converse master form: every positioned entry arises from a level and
a compacted row in the stated way. -/
theorem positions_master_inv {blocks : List FlowBlock} {s : String} (hs : s ≠ "")
    {q : String × Pos} (hq : q ∈ calculate_positions blocks (some s)) :
    ∃ l r y, (q.1, l) ∈ assign_levels blocks s ∧
      (compact_rows (assign_rows blocks (assign_levels blocks s))).lookup q.1
        = some r ∧
      (row_y_list blocks
        (compact_rows (assign_rows blocks (assign_levels blocks s)))).lookup r
        = some y ∧
      q.2 = Pos.mk (START_X + l * HORIZONTAL_SPACING) y ∧
      r ∈ (compact_rows (assign_rows blocks (assign_levels blocks s))).map
        (fun p => p.2) := by
  rw [calculate_positions_some_eq hs] at hq
  rcases List.mem_map.1 hq with ⟨p, hp, hpq⟩
  have hpl : (p.1, p.2) ∈ assign_levels blocks s := by simpa using hp
  obtain ⟨r, y, hr, hy, _, hrmem⟩ := positions_master hs hpl
  refine ⟨p.2, r, y, ?_, ?_, hy, ?_, hrmem⟩
  · rw [← hpq]
    simpa using hp
  · rw [← hpq]
    exact hr
  · rw [← hpq]
    simp only
    rw [hr]
    simp only [Option.getD_some]
    rw [hy]
    rfl

/-! ### Helper lemmas for the claim theorems -/

theorem reach_zero_eq {blocks : List FlowBlock} {s v : String}
    (h : Reach blocks s v 0) : v = s := by
  cases h
  rfl

theorem filterMap_lookup_nil (l : List String) :
    l.filterMap (fun p => List.lookup p ([] : List (String × Nat))) = [] := by
  induction l with
  | nil => rfl
  | cons x t ih => simp [List.lookup, ih]

theorem get_parent_row_nil (blocks : List FlowBlock) (bid : String) :
    get_parent_row blocks [] bid = 0 := by
  rw [get_parent_row, filterMap_lookup_nil]

theorem all_eq_singleton {α β : Type} {l : List (α × β)} {e : α × β}
    (hnd : (l.map Prod.fst).Nodup) (he : e ∈ l) (hall : ∀ p ∈ l, p = e) :
    l = [e] := by
  cases l with
  | nil => simp at he
  | cons x t =>
    have hx : x = e := hall x (by simp)
    subst hx
    cases t with
    | nil => rfl
    | cons y u =>
      have hy : y = x := hall y (by simp)
      rw [List.map_cons, List.map_cons, List.nodup_cons] at hnd
      exfalso
      exact hnd.1 (by simp [hy])

theorem assign_rows_fold_prefix (blocks : List FlowBlock) (lvl : Nat) :
    ∀ (todo : List String) (st : RowState),
    ∃ ext, (todo.foldl (assign_rows_step blocks lvl) st).1 = st.1 ++ ext := by
  intro todo
  induction todo with
  | nil => exact fun st => ⟨[], by simp⟩
  | cons b rest ih =>
    intro st
    obtain ⟨r, heq, _⟩ := assign_rows_step_shape blocks lvl st b
    obtain ⟨ext, hext⟩ := ih (assign_rows_step blocks lvl st b)
    refine ⟨[(b, r)] ++ ext, ?_⟩
    rw [List.foldl_cons, hext, heq]
    simp

theorem assign_rows_outer_prefix (blocks : List FlowBlock)
    (levels : List (String × Nat)) :
    ∀ (lvls : List Nat) (st : RowState),
    ∃ ext, ((lvls.foldl (fun s lvl => assign_rows_level blocks levels lvl s) st).1
      = st.1 ++ ext) := by
  intro lvls
  induction lvls with
  | nil => exact fun st => ⟨[], by simp⟩
  | cons lvl rest ih =>
    intro st
    obtain ⟨ext1, hext1⟩ := assign_rows_fold_prefix blocks lvl
      (sortOn (fun bid => get_parent_row blocks st.1 bid) (level_group levels lvl)) st
    obtain ⟨ext2, hext2⟩ := ih (assign_rows_level blocks levels lvl st)
    refine ⟨ext1 ++ ext2, ?_⟩
    rw [List.foldl_cons, hext2]
    rw [show assign_rows_level blocks levels lvl st
        = (sortOn (fun bid => get_parent_row blocks st.1 bid)
            (level_group levels lvl)).foldl (assign_rows_step blocks lvl) st from rfl]
    rw [hext1, List.append_assoc]

theorem assign_rows_step_empty (blocks : List FlowBlock) (lvl : Nat) (bid : String) :
    assign_rows_step blocks lvl ([], []) bid = ([(bid, 0)], [(lvl, 0)]) := by
  cases hnap : next_action_parent blocks bid with
  | none =>
    simp [assign_rows_step, hnap, get_parent_row_nil, find_free_row]
  | some p =>
    simp [assign_rows_step, hnap, List.lookup, get_parent_row_nil, find_free_row]

theorem foldl_max_eq {α : Type} (g : α → Nat) :
    ∀ (l : List α) (a : Nat),
    l.foldl (fun acc x => max acc (g x)) a = max a ((l.map g).foldr max 0) := by
  intro l
  induction l with
  | nil => intro a; simp
  | cons x t ih =>
    intro a
    rw [List.foldl_cons, ih, List.map_cons, List.foldr_cons]
    omega

theorem foldr_max_add {α : Type} (g : α → Nat) (c : Nat) :
    ∀ (l : List α), l ≠ [] →
    (l.map (fun x => g x + c)).foldr max 0 = (l.map g).foldr max 0 + c := by
  intro l
  induction l with
  | nil => intro h; exact absurd rfl h
  | cons x t ih =>
    intro _
    cases t with
    | nil => simp
    | cons y u =>
      have hmax : ∀ a b k : Nat, max (a + k) (b + k) = max a b + k := by
        intro a b k
        rcases Nat.le_total a b with h | h
        · rw [Nat.max_eq_right h, Nat.max_eq_right (by omega)]
        · rw [Nat.max_eq_left h, Nat.max_eq_left (by omega)]
      have h1 : ((x :: y :: u).map (fun z => g z + c)).foldr max 0
          = max (g x + c) (((y :: u).map (fun z => g z + c)).foldr max 0) := by
        rw [List.map_cons, List.foldr_cons]
      have h2 : ((x :: y :: u).map g).foldr max 0
          = max (g x) (((y :: u).map g).foldr max 0) := by
        rw [List.map_cons, List.foldr_cons]
      rw [h1, h2, ih (by simp), hmax]

theorem row_members_ne_nil {rows : List (String × Nat)} {r : Nat}
    (h : r ∈ rows.map (fun p => p.2)) : row_members rows r ≠ [] := by
  rcases List.mem_map.1 h with ⟨p, hp, hpr⟩
  have : p.1 ∈ row_members rows r := by
    refine List.mem_map.2 ⟨p, List.mem_filter.2 ⟨hp, by simp [hpr]⟩, rfl⟩
  exact List.ne_nil_of_mem this

theorem levelsMeasure_append_le (blocks : List FlowBlock)
    (levels : List (String × Nat)) (queue : List (String × Nat))
    (e : String × Nat) :
    levelsMeasure blocks (levels ++ [e]) queue ≤ levelsMeasure blocks levels queue := by
  have himp : ∀ v ∈ levelsCand blocks,
      (((levels ++ [e]).lookup v).isNone = true) →
      ((levels.lookup v).isNone = true) := by
    intro v _ h2
    cases hcase : levels.lookup v with
    | none => simp
    | some w =>
      rw [lookup_append_left hcase] at h2
      simp at h2
  have hU := length_filter_mono himp
  have := Nat.mul_le_mul_left (enqueueBound blocks) hU
  simp only [levelsMeasure]
  omega

theorem levelsMeasure_assign_lt {blocks : List FlowBlock} {bid : String}
    {lvl : Nat} {levels rest : List (String × Nat)} {b : FlowBlock}
    (hlook : levels.lookup bid = none)
    (hblock : get_block blocks bid = some b) :
    levelsMeasure blocks (levels ++ [(bid, lvl)])
      (rest ++ (targetsOf b).filterMap
        (fun t => if ((levels ++ [(bid, lvl)]).lookup t).isSome then none
                  else some (t, lvl + 1))) + 1
      ≤ levelsMeasure blocks levels ((bid, lvl) :: rest) := by
  have hbmem := get_block_mem hblock
  have himp : ∀ v ∈ levelsCand blocks,
      (((levels ++ [(bid, lvl)]).lookup v).isNone = true) →
      ((levels.lookup v).isNone = true) := by
    intro v _ h2
    cases hcase : levels.lookup v with
    | none => simp
    | some w =>
      rw [lookup_append_left hcase] at h2
      simp at h2
  have hbidCand : bid ∈ levelsCand blocks := by
    rw [levelsCand, List.mem_dedup]
    refine List.mem_append_left _ ?_
    rw [← hbmem.2]
    exact List.mem_map_of_mem _ hbmem.1
  have hq_at_bid : (((levels ++ [(bid, lvl)]).lookup bid).isNone) = false := by
    rw [lookup_append_right hlook]
    simp [List.lookup]
  have hp_at_bid : ((levels.lookup bid).isNone) = true := by
    simp [hlook]
  have hUstrict := length_filter_strict (List.nodup_dedup _)
    hbidCand hp_at_bid hq_at_bid himp
  have hmul : enqueueBound blocks *
      (((levelsCand blocks).filter
        (fun v => (((levels ++ [(bid, lvl)]).lookup v).isNone))).length)
      + enqueueBound blocks ≤
      enqueueBound blocks *
      (((levelsCand blocks).filter
        (fun v => ((levels.lookup v).isNone))).length) := by
    have h1 := Nat.mul_le_mul_left (enqueueBound blocks) hUstrict
    calc enqueueBound blocks *
        (((levelsCand blocks).filter
          (fun v => (((levels ++ [(bid, lvl)]).lookup v).isNone))).length)
        + enqueueBound blocks
        = enqueueBound blocks *
        ((((levelsCand blocks).filter
          (fun v => (((levels ++ [(bid, lvl)]).lookup v).isNone))).length) + 1) := by
          ring
      _ ≤ _ := h1
  have hlen1 : ((targetsOf b).filterMap
      (fun t => if ((levels ++ [(bid, lvl)]).lookup t).isSome then none
                else some (t, lvl + 1))).length ≤ (targetsOf b).length :=
    List.length_filterMap_le _ _
  have hlen2 : (targetsOf b).length + 2 ≤ enqueueBound blocks := by
    have := targets_length_le hbmem.1
    simp only [enqueueBound]
    omega
  simp only [levelsMeasure, List.length_cons, List.length_append]
  omega

/-- More fuel than the measure never changes the result: the embedded
loop has reached the fixed point of the unbounded Python loop. -/
theorem assign_levels_aux_step_irrel (blocks : List FlowBlock) :
    ∀ (fuel : Nat) (levels queue : List (String × Nat)),
    levelsMeasure blocks levels queue ≤ fuel →
    assign_levels_aux blocks (fuel + 1) levels queue
      = assign_levels_aux blocks fuel levels queue := by
  intro fuel
  induction fuel with
  | zero =>
    intro levels queue hm
    cases queue with
    | nil => rfl
    | cons p rest =>
      exfalso
      simp [levelsMeasure] at hm
  | succ fuel ih =>
    intro levels queue hm
    cases queue with
    | nil => rfl
    | cons head rest =>
      obtain ⟨bid, lvl⟩ := head
      by_cases hassigned : (levels.lookup bid).isSome
      · rw [show assign_levels_aux blocks (fuel + 1 + 1) levels ((bid, lvl) :: rest)
            = assign_levels_aux blocks (fuel + 1) levels rest from by
            simp [assign_levels_aux, hassigned]]
        rw [show assign_levels_aux blocks (fuel + 1) levels ((bid, lvl) :: rest)
            = assign_levels_aux blocks fuel levels rest from by
            simp [assign_levels_aux, hassigned]]
        refine ih levels rest ?_
        simp only [levelsMeasure, List.length_cons] at hm ⊢
        omega
      · have hlook : levels.lookup bid = none :=
          Option.not_isSome_iff_eq_none.1 (by simpa using hassigned)
        cases hblock : get_block blocks bid with
        | none =>
          rw [show assign_levels_aux blocks (fuel + 1 + 1) levels ((bid, lvl) :: rest)
              = assign_levels_aux blocks (fuel + 1) (levels ++ [(bid, lvl)]) rest from by
              simp [assign_levels_aux, hassigned, hblock]]
          rw [show assign_levels_aux blocks (fuel + 1) levels ((bid, lvl) :: rest)
              = assign_levels_aux blocks fuel (levels ++ [(bid, lvl)]) rest from by
              simp [assign_levels_aux, hassigned, hblock]]
          refine ih _ rest ?_
          have := levelsMeasure_append_le blocks levels rest (bid, lvl)
          simp only [levelsMeasure, List.length_cons] at hm this ⊢
          omega
        | some b =>
          rw [show assign_levels_aux blocks (fuel + 1 + 1) levels ((bid, lvl) :: rest)
              = assign_levels_aux blocks (fuel + 1) (levels ++ [(bid, lvl)])
                  (rest ++ (targetsOf b).filterMap
                    (fun t => if ((levels ++ [(bid, lvl)]).lookup t).isSome then none
                              else some (t, lvl + 1))) from by
              simp [assign_levels_aux, hassigned, hblock]]
          rw [show assign_levels_aux blocks (fuel + 1) levels ((bid, lvl) :: rest)
              = assign_levels_aux blocks fuel (levels ++ [(bid, lvl)])
                  (rest ++ (targetsOf b).filterMap
                    (fun t => if ((levels ++ [(bid, lvl)]).lookup t).isSome then none
                              else some (t, lvl + 1))) from by
              simp [assign_levels_aux, hassigned, hblock]]
          refine ih _ _ ?_
          have := @levelsMeasure_assign_lt blocks bid lvl levels rest b hlook hblock
          omega

/-- Any fuel at least the initial measure computes `assign_levels`. -/
theorem assign_levels_fuel_ge (blocks : List FlowBlock) (s : String) :
    ∀ fuel, levelsMeasure blocks [] [(s, 0)] ≤ fuel →
    assign_levels_aux blocks fuel [] [(s, 0)] = assign_levels blocks s := by
  intro fuel h
  induction fuel with
  | zero =>
    have : levelsMeasure blocks [] [(s, 0)] = 0 := Nat.le_zero.1 h
    rw [assign_levels, this]
  | succ fuel ih =>
    rcases Nat.lt_or_ge (levelsMeasure blocks [] [(s, 0)]) (fuel + 1) with hlt | hge
    · have hle : levelsMeasure blocks [] [(s, 0)] ≤ fuel := by omega
      rw [assign_levels_aux_step_irrel blocks fuel [] [(s, 0)] hle]
      exact ih hle
    · have : levelsMeasure blocks [] [(s, 0)] = fuel + 1 := by omega
      rw [assign_levels, this]

/-- The start identifier is placed at row 0 by `_assign_rows`: level 0 is
processed first, the start is its only member, and the forward scan from
row 0 assigns row 0. -/
theorem assign_rows_start {blocks : List FlowBlock} {levels : List (String × Nat)}
    {s : String}
    (hnd : (levels.map Prod.fst).Nodup)
    (hsmem : (s, 0) ∈ levels)
    (honly : ∀ v, (v, 0) ∈ levels → v = s) :
    (assign_rows blocks levels).lookup s = some 0 := by
  have h0mem : (0 : Nat) ∈ levels.map (fun p => p.2) :=
    List.mem_map.2 ⟨(s, 0), hsmem, rfl⟩
  have h0s : (0 : Nat) ∈ sortOn (fun l => l) ((levels.map (fun p => p.2)).dedup) :=
    mem_sortOn.2 (List.mem_dedup.2 h0mem)
  obtain ⟨lt, hlt⟩ := sorted_head_of_min
    (sortOn_sorted_nat ((levels.map (fun p => p.2)).dedup)) h0s
    (fun b _ => Nat.zero_le b)
  have hfil : levels.filter (fun p => p.2 == 0) = [(s, 0)] := by
    refine all_eq_singleton ?_ ?_ ?_
    · exact hnd.sublist ((List.filter_sublist levels).map Prod.fst)
    · exact List.mem_filter.2 ⟨hsmem, by simp⟩
    · intro p hp
      rcases List.mem_filter.1 hp with ⟨hp1, hp2⟩
      have hp2 : p.2 = 0 := by simpa using hp2
      have hp0 : (p.1, 0) ∈ levels := by
        rw [← hp2]
        simpa using hp1
      have := honly p.1 hp0
      obtain ⟨p1, p2⟩ := p
      simp only at hp2 this
      rw [hp2, this]
  have hgroup : level_group levels 0 = [s] := by
    rw [level_group, hfil]
    rfl
  have hsort : sortOn (fun bid => get_parent_row blocks
      (([], []) : RowState).1 bid) (level_group levels 0) = [s] := by
    rw [hgroup]
    rfl
  have hst1 : assign_rows_level blocks levels 0 (([], []) : RowState)
      = ([(s, 0)], [(0, 0)]) := by
    rw [show assign_rows_level blocks levels 0 (([], []) : RowState)
        = (sortOn (fun bid => get_parent_row blocks (([], []) : RowState).1 bid)
            (level_group levels 0)).foldl (assign_rows_step blocks 0) ([], [])
          from rfl]
    rw [hsort, List.foldl_cons, List.foldl_nil, assign_rows_step_empty]
  obtain ⟨ext, hext⟩ := assign_rows_outer_prefix blocks levels lt
    (([(s, 0)], [(0, 0)]) : RowState)
  have : assign_rows blocks levels = [(s, 0)] ++ ext := by
    rw [show assign_rows blocks levels
        = ((sortOn (fun l => l) ((levels.map (fun p => p.2)).dedup)).foldl
            (fun st lvl => assign_rows_level blocks levels lvl st) ([], [])).1
          from rfl]
    rw [hlt, List.foldl_cons, hst1]
    exact hext
  rw [this]
  exact lookup_append_left (by simp [List.lookup])

/-- The start identifier keeps row 0 through compaction and is positioned
at the origin. -/
theorem start_position (blocks : List FlowBlock) {s : String} (hs : s ≠ "") :
    (s, Pos.mk START_X START_Y) ∈ calculate_positions blocks (some s) := by
  have hnd := assign_levels_nodup_keys blocks s
  have hsmem := assign_levels_start_mem blocks s
  have honly : ∀ v, (v, 0) ∈ assign_levels blocks s → v = s :=
    fun v hv => reach_zero_eq (assign_levels_sound hv)
  have hlook0 : (assign_rows blocks (assign_levels blocks s)).lookup s = some 0 :=
    assign_rows_start hnd hsmem honly
  have hne : assign_rows blocks (assign_levels blocks s) ≠ [] := by
    intro hcon
    rw [hcon] at hlook0
    simp [List.lookup] at hlook0
  have h0m : (0 : Nat) ∈ (assign_rows blocks (assign_levels blocks s)).map
      (fun p => p.2) :=
    List.mem_map.2 ⟨(s, 0), mem_of_lookup_eq_some hlook0, rfl⟩
  have h0u : (0 : Nat) ∈ uniqueRowsOf (assign_rows blocks (assign_levels blocks s)) :=
    mem_uniqueRowsOf.2 h0m
  obtain ⟨ut, hut⟩ := sorted_head_of_min
    (sortOn_sorted_nat (((assign_rows blocks
      (assign_levels blocks s)).map (fun p => p.2)).dedup)) h0u
    (fun b _ => Nat.zero_le b)
  have hidx : (uniqueRowsOf (assign_rows blocks (assign_levels blocks s))).indexOf 0
      = 0 := by
    rw [show uniqueRowsOf (assign_rows blocks (assign_levels blocks s))
        = sortOn (fun r => r) (((assign_rows blocks
            (assign_levels blocks s)).map (fun p => p.2)).dedup) from rfl]
    rw [hut]
    exact List.indexOf_cons_self 0 ut
  have hcompact : (compact_rows (assign_rows blocks
      (assign_levels blocks s))).lookup s = some 0 := by
    rw [compact_rows_eq hne,
      lookup_map_value
        (fun x => List.indexOf x (uniqueRowsOf (assign_rows blocks
          (assign_levels blocks s))))
        (assign_rows blocks (assign_levels blocks s)) s,
      hlook0]
    simp [hidx]
  obtain ⟨r, y, hr, hy, hmem, hrmem⟩ := positions_master hs hsmem
  rw [hcompact] at hr
  injection hr with hr
  subst hr
  rw [row_y_list_lookup hrmem] at hy
  have hfil0 : (uniqueRowsOf (compact_rows (assign_rows blocks
      (assign_levels blocks s)))).filter (fun x => decide (x < 0)) = [] := by
    rw [List.filter_eq_nil_iff]
    intro x _
    simp
  rw [hfil0] at hy
  simp only [List.map_nil, List.sum_nil, Nat.add_zero] at hy
  injection hy with hy
  rw [show START_X + 0 * HORIZONTAL_SPACING = START_X from by simp] at hmem
  rw [← hy] at hmem
  exact hmem

/-- Two distinct identifiers at the same level keep distinct rows after
compaction. -/
theorem compact_distinct {blocks : List FlowBlock} {s : String}
    {p q : String × Nat}
    (hp : p ∈ compact_rows (assign_rows blocks (assign_levels blocks s)))
    (hq : q ∈ compact_rows (assign_rows blocks (assign_levels blocks s)))
    (hne : p.1 ≠ q.1)
    (hlk : (assign_levels blocks s).lookup p.1 = (assign_levels blocks s).lookup q.1) :
    p.2 ≠ q.2 := by
  have hnd := assign_levels_nodup_keys blocks s
  have hspec := assign_rows_spec blocks hnd
  cases hrows : assign_rows blocks (assign_levels blocks s) with
  | nil =>
    rw [hrows] at hp
    simp [compact_rows] at hp
  | cons a t =>
    rw [compact_rows_eq (by rw [hrows]; simp)] at hp hq
    rcases List.mem_map.1 hp with ⟨p0, hp0, hp0e⟩
    rcases List.mem_map.1 hq with ⟨q0, hq0, hq0e⟩
    have hne0 : p0.1 ≠ q0.1 := by
      rw [← hp0e, ← hq0e] at hne
      simpa using hne
    have hlk0 : (assign_levels blocks s).lookup p0.1
        = (assign_levels blocks s).lookup q0.1 := by
      rw [← hp0e, ← hq0e] at hlk
      simpa using hlk
    have hrowne := hspec.2.2.1 p0 hp0 q0 hq0 hne0 hlk0
    have hpmem : p0.2 ∈ uniqueRowsOf (assign_rows blocks (assign_levels blocks s)) :=
      mem_uniqueRowsOf.2 (List.mem_map.2 ⟨p0, hp0, rfl⟩)
    have hqmem : q0.2 ∈ uniqueRowsOf (assign_rows blocks (assign_levels blocks s)) :=
      mem_uniqueRowsOf.2 (List.mem_map.2 ⟨q0, hq0, rfl⟩)
    rw [← hp0e, ← hq0e]
    simp only
    intro hcon
    exact hrowne ((List.indexOf_inj hpmem hqmem).1 hcon)

/-- Row heights in the claim's form: the maximum of the minimum spacing
and the padded height of the tallest member block. -/
theorem row_height_eq_max {blocks : List FlowBlock} {rows : List (String × Nat)}
    {r : Nat} (h : r ∈ rows.map (fun p => p.2)) :
    row_height blocks rows r
      = max VERTICAL_SPACING_MIN
        ((((row_members rows r).map
          (fun bid => get_block_height (get_block blocks bid))).foldr max 0)
          + ROW_PADDING) := by
  rw [show row_height blocks rows r
      = (row_members rows r).foldl
          (fun acc bid => max acc (get_block_height (get_block blocks bid)
            + ROW_PADDING)) VERTICAL_SPACING_MIN from rfl]
  rw [foldl_max_eq]
  congr 1
  exact foldr_max_add _ ROW_PADDING _ (row_members_ne_nil h)

/-! ### Claim theorems -/

/-- C9: `calculate_positions` is deterministic — it is a pure function of
the block list and the start action, so any two calls on equal inputs
return identical position mappings (same key set, same x/y per key). -/
theorem claim_c9_deterministic (blocks1 blocks2 : List FlowBlock)
    (s1 s2 : Option String) (hb : blocks1 = blocks2) (hs : s1 = s2) :
    calculate_positions blocks1 s1 = calculate_positions blocks2 s2 := by
  subst hb
  subst hs
  rfl

theorem claim_c9_witness :
    exampleDiamond = exampleDiamond ∧
    calculate_positions exampleDiamond (some "A")
      = calculate_positions exampleDiamond (some "A") :=
  ⟨rfl, claim_c9_deterministic exampleDiamond exampleDiamond (some "A") (some "A")
    rfl rfl⟩

/-- C2: for every graph, `_assign_levels` assigns the start identifier
level 0, assigns each identifier at most one level, and the level of every
assigned identifier is exactly the length of the shortest path from the
start (all three edge kinds weighted 1): it is realized by some path, no
shorter path exists, and every reachable identifier is assigned. -/
theorem claim_c2_shortest_path_levels (blocks : List FlowBlock) (s : String) :
    ((s, 0) ∈ assign_levels blocks s) ∧
    (((assign_levels blocks s).map Prod.fst).Nodup) ∧
    (∀ v l, (v, l) ∈ assign_levels blocks s →
      Reach blocks s v l ∧ ∀ n, Reach blocks s v n → l ≤ n) ∧
    (∀ v n, Reach blocks s v n → ∃ l, (v, l) ∈ assign_levels blocks s) := by
  refine ⟨assign_levels_start_mem blocks s, assign_levels_nodup_keys blocks s,
    ?_, ?_⟩
  · intro v l hv
    exact ⟨assign_levels_sound hv, fun n hn => assign_levels_shortest hv hn⟩
  · intro v n hn
    obtain ⟨l, hl, _⟩ := assign_levels_complete hn
    exact ⟨l, hl⟩

theorem claim_c2_witness :
    (("D", 2) ∈ assign_levels exampleDiamond "A") ∧
    Reach exampleDiamond "A" "D" 2 ∧
    (∀ n, Reach exampleDiamond "A" "D" n → 2 ≤ n) := by
  have h := (claim_c2_shortest_path_levels exampleDiamond "A").2.2.1 "D" 2
    (by decide)
  exact ⟨by decide, h.1, h.2⟩

/-- C1 (amended): the key set of `calculate_positions` equals exactly the
set of identifiers reachable from the start via sequential, conditional
and error edges; a `None` start yields the empty mapping.  (As the
counterexample shows, a start that matches no block is still positioned —
it is reachable from itself by the empty path — so that case is not
empty.) -/
theorem claim_c1_keys_reachable (blocks : List FlowBlock) (s : String)
    (hs : s ≠ "") :
    calculate_positions blocks none = [] ∧
    (∀ v, (∃ pos, (v, pos) ∈ calculate_positions blocks (some s)) ↔
      ∃ n, Reach blocks s v n) := by
  refine ⟨rfl, ?_⟩
  intro v
  constructor
  · rintro ⟨pos, hpos⟩
    obtain ⟨l, r, y, hl, _, _, _, _⟩ := positions_master_inv hs hpos
    exact ⟨l, assign_levels_sound hl⟩
  · rintro ⟨n, hn⟩
    obtain ⟨l, hl, _⟩ := assign_levels_complete hn
    obtain ⟨r, y, _, _, hmem, _⟩ := positions_master hs hl
    exact ⟨_, hmem⟩

theorem claim_c1_counterexample :
    get_block [] "A" = none ∧
    calculate_positions [] (some "A") = [("A", Pos.mk 150 50)] ∧
    calculate_positions [] (some "A") ≠ [] :=
  ⟨rfl, by decide, by decide⟩

theorem claim_c1_witness :
    (("A" : String) ≠ "") ∧
    (calculate_positions exampleLinear none = [] ∧
    (∀ v, (∃ pos, (v, pos) ∈ calculate_positions exampleLinear (some "A")) ↔
      ∃ n, Reach exampleLinear "A" v n)) :=
  ⟨by decide, claim_c1_keys_reachable exampleLinear "A" (by decide)⟩

/-- C3: no two distinct identifiers assigned the same level ever share a
row, in the raw row assignment as well as after compaction. -/
theorem claim_c3_no_same_level_row_collision (blocks : List FlowBlock)
    (s : String) :
    (∀ p ∈ assign_rows blocks (assign_levels blocks s),
     ∀ q ∈ assign_rows blocks (assign_levels blocks s),
      p.1 ≠ q.1 →
      (assign_levels blocks s).lookup p.1 = (assign_levels blocks s).lookup q.1 →
      p.2 ≠ q.2) ∧
    (∀ p ∈ compact_rows (assign_rows blocks (assign_levels blocks s)),
     ∀ q ∈ compact_rows (assign_rows blocks (assign_levels blocks s)),
      p.1 ≠ q.1 →
      (assign_levels blocks s).lookup p.1 = (assign_levels blocks s).lookup q.1 →
      p.2 ≠ q.2) :=
  ⟨(assign_rows_spec blocks (assign_levels_nodup_keys blocks s)).2.2.1,
   fun p hp q hq => compact_distinct hp hq⟩

theorem claim_c3_witness :
    (("B", 0) ∈ assign_rows exampleFanout (assign_levels exampleFanout "A")) ∧
    (("C", 1) ∈ assign_rows exampleFanout (assign_levels exampleFanout "A")) ∧
    ("B" : String) ≠ "C" ∧
    (assign_levels exampleFanout "A").lookup "B"
      = (assign_levels exampleFanout "A").lookup "C" ∧
    (0 : Nat) ≠ 1 := by
  refine ⟨by decide, by decide, by decide, by decide, ?_⟩
  exact (claim_c3_no_same_level_row_collision exampleFanout "A").1
    ("B", 0) (by decide) ("C", 1) (by decide) (by decide) (by decide)

/-- C5: `_compact_rows` maps the row values onto the initial segment
`{0, …, k-1}` where `k` is the number of distinct row values, preserving
all equalities and the relative order of rows. -/
theorem claim_c5_compaction (rows : List (String × Nat)) :
    (∃ k, ∀ i, i ∈ (compact_rows rows).map (fun p => p.2) ↔ i < k) ∧
    (∀ v w rv rw, rows.lookup v = some rv → rows.lookup w = some rw →
      ∃ cv cw, (compact_rows rows).lookup v = some cv ∧
        (compact_rows rows).lookup w = some cw ∧
        (cv = cw ↔ rv = rw) ∧ (cv < cw ↔ rv < rw)) := by
  refine ⟨⟨(uniqueRowsOf rows).length, fun i => compact_rows_values⟩, ?_⟩
  intro v w rv rw hv hw
  have hne : rows ≠ [] := by
    intro h
    rw [h] at hv
    simp [List.lookup] at hv
  have hcv : (compact_rows rows).lookup v
      = some ((uniqueRowsOf rows).indexOf rv) := by
    rw [compact_rows_eq hne,
      lookup_map_value (fun x => List.indexOf x (uniqueRowsOf rows)) rows v, hv]
    rfl
  have hcw : (compact_rows rows).lookup w
      = some ((uniqueRowsOf rows).indexOf rw) := by
    rw [compact_rows_eq hne,
      lookup_map_value (fun x => List.indexOf x (uniqueRowsOf rows)) rows w, hw]
    rfl
  have hrvm : rv ∈ uniqueRowsOf rows :=
    mem_uniqueRowsOf.2 (List.mem_map.2 ⟨(v, rv), mem_of_lookup_eq_some hv, rfl⟩)
  have hrwm : rw ∈ uniqueRowsOf rows :=
    mem_uniqueRowsOf.2 (List.mem_map.2 ⟨(w, rw), mem_of_lookup_eq_some hw, rfl⟩)
  exact ⟨_, _, hcv, hcw, List.indexOf_inj hrvm hrwm,
    indexOf_lt_iff_of_strict (uniqueRowsOf_strict rows) hrvm hrwm⟩

theorem claim_c5_witness :
    ([("a", 0), ("b", 2), ("c", 7)] : List (String × Nat)).lookup "a" = some 0 ∧
    ([("a", 0), ("b", 2), ("c", 7)] : List (String × Nat)).lookup "b" = some 2 ∧
    (∃ cv cw,
      (compact_rows [("a", 0), ("b", 2), ("c", 7)]).lookup "a" = some cv ∧
      (compact_rows [("a", 0), ("b", 2), ("c", 7)]).lookup "b" = some cw ∧
      (cv = cw ↔ (0 : Nat) = 2) ∧ (cv < cw ↔ (0 : Nat) < 2)) :=
  ⟨by decide, by decide,
    (claim_c5_compaction [("a", 0), ("b", 2), ("c", 7)]).2 "a" "b" 0 2
      (by decide) (by decide)⟩

/-- C4 (counterexample to the claim as stated): in `exampleTwoSeqParents`
the node `X` has a sequential-edge parent `P1` that is already placed at
the previous level (level 1, row 0), and that row is not taken by any
node at `X`'s level (`X` is the only level-2 node), yet `X` is assigned
row 1, not row 0 — the next-action map retained the later parent `P2`. -/
theorem claim_c4_counterexample :
    (∃ b ∈ exampleTwoSeqParents, b.identifier = "P1" ∧
      b.transitions.NextAction = some "X") ∧
    (assign_levels exampleTwoSeqParents "S").lookup "P1" = some 1 ∧
    (assign_levels exampleTwoSeqParents "S").lookup "X" = some 2 ∧
    (assign_rows exampleTwoSeqParents
      (assign_levels exampleTwoSeqParents "S")).lookup "P1" = some 0 ∧
    (∀ p ∈ assign_rows exampleTwoSeqParents
      (assign_levels exampleTwoSeqParents "S"),
      (assign_levels exampleTwoSeqParents "S").lookup p.1 = some 2 →
        p.1 = "X") ∧
    (assign_rows exampleTwoSeqParents
      (assign_levels exampleTwoSeqParents "S")).lookup "X" = some 1 := by
  refine ⟨⟨⟨"P1", ⟨some "X", [], []⟩⟩, by decide, by decide, by decide⟩,
    by decide, by decide, by decide, by decide, by decide⟩

/-- C4 (amended): the parent consulted for row reuse is the one recorded
in the next-action map — the last block in list order whose sequential
edge targets the node; when that parent is placed and its row is free at
the node's level, the node receives exactly that row.  The two-node
linear scenario yields positions A = (START_X, START_Y) and
B = (START_X + HORIZONTAL_SPACING, START_Y). -/
theorem claim_c4_seq_parent_row_reuse (blocks : List FlowBlock) (lvl : Nat)
    (st : RowState) (bid p : String) (r : Nat)
    (hnap : next_action_parent blocks bid = some p)
    (hlook : st.1.lookup p = some r)
    (hfree : (lvl, r) ∉ st.2) :
    (assign_rows_step blocks lvl st bid
      = (st.1 ++ [(bid, r)], st.2 ++ [(lvl, r)])) ∧
    (calculate_positions exampleLinear (some "A")
      = [("A", Pos.mk START_X START_Y),
         ("B", Pos.mk (START_X + HORIZONTAL_SPACING) START_Y)]) := by
  refine ⟨?_, by decide⟩
  simp only [assign_rows_step, hnap, hlook, if_neg hfree]

theorem claim_c4_witness :
    next_action_parent exampleLinear "B" = some "A" ∧
    ([(("A" : String), (0 : Nat))], ([] : List (Nat × Nat))).1.lookup "A"
      = some 0 ∧
    ((1 : Nat), (0 : Nat)) ∉ ([] : List (Nat × Nat)) ∧
    (assign_rows_step exampleLinear 1 ([("A", 0)], []) "B"
      = ([("A", 0), ("B", 0)], [(1, 0)])) := by
  have h := claim_c4_seq_parent_row_reuse exampleLinear 1 ([("A", 0)], [])
    "B" "A" 0 (by decide) (by decide) (by decide)
  exact ⟨by decide, by decide, by decide, h.1⟩

/-- C6: the y coordinate of every positioned node is `START_Y` plus the
sum of the heights of all strictly smaller used rows, where a row's height
is the maximum of `MIN_ROW_HEIGHT` and the padded height of its tallest
member block (base height plus branch count times per-branch height);
consequently y is strictly increasing in the row. -/
theorem claim_c6_cumulative_row_heights (blocks : List FlowBlock) (s : String)
    (hs : s ≠ "") (v : String) (pos : Pos)
    (hv : (v, pos) ∈ calculate_positions blocks (some s)) :
    ∃ r, (compact_rows (assign_rows blocks (assign_levels blocks s))).lookup v
        = some r ∧
      pos.y = START_Y +
        (((uniqueRowsOf (compact_rows (assign_rows blocks
            (assign_levels blocks s)))).filter (fun x => decide (x < r))).map
          (row_height blocks (compact_rows (assign_rows blocks
            (assign_levels blocks s))))).sum ∧
      (∀ x ∈ uniqueRowsOf (compact_rows (assign_rows blocks
          (assign_levels blocks s))),
        row_height blocks (compact_rows (assign_rows blocks
            (assign_levels blocks s))) x
          = max VERTICAL_SPACING_MIN
            ((((row_members (compact_rows (assign_rows blocks
                (assign_levels blocks s))) x).map
              (fun bid => get_block_height (get_block blocks bid))).foldr max 0)
              + ROW_PADDING)) ∧
      (∀ w posw rw, (w, posw) ∈ calculate_positions blocks (some s) →
        (compact_rows (assign_rows blocks (assign_levels blocks s))).lookup w
          = some rw →
        r < rw → pos.y < posw.y) := by
  obtain ⟨l, r, y, hl, hr, hy, hpe, hrmem⟩ := positions_master_inv hs hv
  simp only at hl hr hy hpe hrmem
  refine ⟨r, hr, ?_, ?_, ?_⟩
  · rw [row_y_list_lookup hrmem] at hy
    injection hy with hy
    rw [hpe]
    exact hy.symm
  · intro x hx
    exact row_height_eq_max (mem_uniqueRowsOf.1 hx)
  · intro w posw rw hw hrw hlt
    obtain ⟨lw, rw2, yw, hlw, hrw2, hyw, hwe, hrwmem⟩ := positions_master_inv hs hw
    simp only at hlw hrw2 hyw hwe hrwmem
    rw [hrw] at hrw2
    injection hrw2 with hrw2
    subst hrw2
    rw [hpe, hwe]
    exact row_y_strict_mono hrmem hrwmem hlt hy hyw

theorem claim_c6_witness :
    (("A" : String) ≠ "") ∧
    (("A", Pos.mk 150 50) ∈ calculate_positions exampleFanout (some "A")) ∧
    (∃ r, (compact_rows (assign_rows exampleFanout
        (assign_levels exampleFanout "A"))).lookup "A" = some r ∧
      (Pos.mk 150 50).y = START_Y +
        (((uniqueRowsOf (compact_rows (assign_rows exampleFanout
            (assign_levels exampleFanout "A")))).filter
          (fun x => decide (x < r))).map
          (row_height exampleFanout (compact_rows (assign_rows exampleFanout
            (assign_levels exampleFanout "A"))))).sum ∧
      (∀ x ∈ uniqueRowsOf (compact_rows (assign_rows exampleFanout
          (assign_levels exampleFanout "A"))),
        row_height exampleFanout (compact_rows (assign_rows exampleFanout
            (assign_levels exampleFanout "A"))) x
          = max VERTICAL_SPACING_MIN
            ((((row_members (compact_rows (assign_rows exampleFanout
                (assign_levels exampleFanout "A"))) x).map
              (fun bid => get_block_height (get_block exampleFanout bid))).foldr
                max 0) + ROW_PADDING)) ∧
      (∀ w posw rw,
        (w, posw) ∈ calculate_positions exampleFanout (some "A") →
        (compact_rows (assign_rows exampleFanout
          (assign_levels exampleFanout "A"))).lookup w = some rw →
        r < rw → (Pos.mk 150 50).y < posw.y)) :=
  ⟨by decide, by decide,
    claim_c6_cumulative_row_heights exampleFanout "A" (by decide) "A"
      (Pos.mk 150 50) (by decide)⟩

/-- C7: when the start identifier names an existing (and hence non-empty,
as all block identifiers are) block, the start node is positioned exactly
at the origin (START_X, START_Y). -/
theorem claim_c7_start_at_origin (blocks : List FlowBlock) (s : String)
    (b : FlowBlock) (hs : s ≠ "") (hb : get_block blocks s = some b) :
    (s, Pos.mk START_X START_Y) ∈ calculate_positions blocks (some s) ∧
    ∀ pos, (s, pos) ∈ calculate_positions blocks (some s) →
      pos = Pos.mk START_X START_Y := by
  have h1 := start_position blocks hs
  refine ⟨h1, ?_⟩
  intro pos hpos
  have hnd := calculate_positions_nodup_keys blocks hs
  have e1 := lookup_eq_some_of_mem hnd h1
  have e2 := lookup_eq_some_of_mem hnd hpos
  rw [e1] at e2
  injection e2 with e2
  exact e2.symm

theorem claim_c7_witness :
    (("A" : String) ≠ "") ∧
    get_block exampleSelfLoop "A" = some ⟨"A", ⟨some "B", [some "A"], []⟩⟩ ∧
    (("A", Pos.mk START_X START_Y) ∈ calculate_positions exampleSelfLoop
      (some "A")) :=
  ⟨by decide, by decide,
    (claim_c7_start_at_origin exampleSelfLoop "A"
      ⟨"A", ⟨some "B", [some "A"], []⟩⟩ (by decide) (by decide)).1⟩

/-- C8: `calculate_positions` is total — the BFS loop reaches its fixed
point within the wrapper's fuel (any larger fuel gives the same result),
every node with a level is positioned exactly once (keys equal the level
keys and are duplicate-free), and in the self-loop graph A and B are each
positioned once at levels 0 and 1, with no phantom node. -/
theorem claim_c8_totality (blocks : List FlowBlock) (s : String) (hs : s ≠ "") :
    (∀ fuel, levelsMeasure blocks [] [(s, 0)] ≤ fuel →
      assign_levels_aux blocks fuel [] [(s, 0)] = assign_levels blocks s) ∧
    ((calculate_positions blocks (some s)).map Prod.fst
      = (assign_levels blocks s).map Prod.fst) ∧
    (((calculate_positions blocks (some s)).map Prod.fst).Nodup) ∧
    (assign_levels exampleSelfLoop "A" = [("A", 0), ("B", 1)]) ∧
    (calculate_positions exampleSelfLoop (some "A")
      = [("A", Pos.mk 150 50), ("B", Pos.mk 430 50)]) :=
  ⟨assign_levels_fuel_ge blocks s, calculate_positions_keys hs,
   calculate_positions_nodup_keys blocks hs, by decide, by decide⟩

theorem claim_c8_witness :
    (("A" : String) ≠ "") ∧
    ((calculate_positions exampleSelfLoop (some "A")).map Prod.fst
      = (assign_levels exampleSelfLoop "A").map Prod.fst) ∧
    (levelsMeasure exampleSelfLoop [] [("A", 0)]
      ≤ levelsMeasure exampleSelfLoop [] [("A", 0)]) ∧
    (assign_levels_aux exampleSelfLoop
        (levelsMeasure exampleSelfLoop [] [("A", 0)]) [] [("A", 0)]
      = assign_levels exampleSelfLoop "A") :=
  ⟨by decide, (claim_c8_totality exampleSelfLoop "A" (by decide)).2.1,
    le_refl _,
    (claim_c8_totality exampleSelfLoop "A" (by decide)).1 _ (le_refl _)⟩

/-- C10: the position mapping is injective — two distinct positioned
identifiers never share the same (x, y) pair: at equal levels their rows
differ and hence their y differ; at distinct levels their x differ. -/
theorem claim_c10_positions_injective (blocks : List FlowBlock)
    (sa : Option String) :
    ∀ p ∈ calculate_positions blocks sa, ∀ q ∈ calculate_positions blocks sa,
      p.1 ≠ q.1 → p.2 ≠ q.2 := by
  intro p hp q hq hne
  cases sa with
  | none => simp [calculate_positions] at hp
  | some s =>
    by_cases hs : s = ""
    · subst hs
      simp [calculate_positions] at hp
    · obtain ⟨lp, rp, yp, hlp, hrp, hyp, hpe, hrpm⟩ := positions_master_inv hs hp
      obtain ⟨lq, rq, yq, hlq, hrq, hyq, hqe, hrqm⟩ := positions_master_inv hs hq
      by_cases hll : lp = lq
      · have hnd := assign_levels_nodup_keys blocks s
        have hlkp := lookup_eq_some_of_mem hnd hlp
        have hlkq := lookup_eq_some_of_mem hnd hlq
        have hlk : (assign_levels blocks s).lookup p.1
            = (assign_levels blocks s).lookup q.1 := by
          rw [hlkp, hlkq, hll]
        have hrne : rp ≠ rq :=
          compact_distinct (mem_of_lookup_eq_some hrp)
            (mem_of_lookup_eq_some hrq) hne hlk
        intro hcon
        rw [hpe, hqe] at hcon
        injection hcon with hx hy
        rcases Nat.lt_or_ge rp rq with h | h
        · have := row_y_strict_mono hrpm hrqm h hyp hyq
          omega
        · have hqlt : rq < rp := by omega
          have := row_y_strict_mono hrqm hrpm hqlt hyq hyp
          omega
      · intro hcon
        rw [hpe, hqe] at hcon
        injection hcon with hx hy
        simp only [START_X, HORIZONTAL_SPACING] at hx
        exact hll (by omega)

theorem claim_c10_witness :
    (("A", Pos.mk 150 50) ∈ calculate_positions exampleLinear (some "A")) ∧
    (("B", Pos.mk 430 50) ∈ calculate_positions exampleLinear (some "A")) ∧
    (("A" : String) ≠ "B") ∧
    Pos.mk 150 50 ≠ Pos.mk 430 50 :=
  ⟨by decide, by decide, by decide,
    claim_c10_positions_injective exampleLinear (some "A")
      ("A", Pos.mk 150 50) (by decide) ("B", Pos.mk 430 50) (by decide)
      (by decide)⟩

end CxBlueprint
